import Mathlib

/-!
# AES-128 CBC on an OpenCL device: a shallow embedding of `aes_opencl.c`

The kernel source string of `src/accel_libs/opencl/aes_opencl.c` and the host
function `aes_encrypt_cbc` are embedded as Lean functions.

* A `uchar` is a `Nat` below 256; truncation is written `% 256` where the C code
  can overflow (`a<<=1` in `gmul`, and the `int rcon` that is mixed into a byte).
* A `__global uchar*` that is written through is an address into a `GlobalMem`,
  the device buffer `buf_out`; every store and every call of `key_expansion` is
  recorded in the event list of the memory, most recent first.
* The private array `block[16]` and the read-only buffers (`in`, `key`, `iv`) are
  plain lists of bytes; reads outside a list give 0.
* `for` loops with a fixed trip count are left folds over `List.range`; the
  `while` loop of `key_expansion` runs on fuel. An update in place of one element,
  `s[i] = f(s[i])` or `s[i] ^= e`, is `List.modify` at index `i`.
-/

namespace AesOpenCL

/-! ## Device memory -/

/-- What a work item does to the device buffer that can be observed from outside. -/
inductive Event where
  | call_key_expansion
  | store (addr : Nat)
deriving DecidableEq, Repr

/-- The device buffer `buf_out`: the byte at each address, with the record of the
stores made into it and of the calls of `key_expansion` (most recent first). -/
structure GlobalMem where
  load : Nat → Nat
  events : List Event

/-- Write `p[a] = v` for the base pointer `p` of the buffer. -/
def GlobalMem.store (m : GlobalMem) (a v : Nat) : GlobalMem :=
  { load := fun b => if b = a then v else m.load b, events := Event.store a :: m.events }

/-- A buffer with the contents `l` and nothing recorded yet. -/
def GlobalMem.ofList (l : List Nat) : GlobalMem :=
  { load := fun a => l.getD a 0, events := [] }

/-- Every element is a `uchar`. -/
def IsBytes (l : List Nat) : Prop := ∀ x ∈ l, x < 256

instance (l : List Nat) : Decidable (IsBytes l) := by
  unfold IsBytes; infer_instance

/-! ## The kernel source -/

/-- Source: `__constant uchar sbox[256]`, the 256 entries in the order of the source. -/
def sbox : List Nat :=
  [0x63, 0x7c, 0x77, 0x7b, 0xf2, 0x6b, 0x6f, 0xc5, 0x30, 0x01, 0x67, 0x2b, 0xfe, 0xd7, 0xab, 0x76,
   0xca, 0x82, 0xc9, 0x7d, 0xfa, 0x59, 0x47, 0xf0, 0xad, 0xd4, 0xa2, 0xaf, 0x9c, 0xa4, 0x72, 0xc0,
   0xb7, 0xfd, 0x93, 0x26, 0x36, 0x3f, 0xf7, 0xcc, 0x34, 0xa5, 0xe5, 0xf1, 0x71, 0xd8, 0x31, 0x15,
   0x04, 0xc7, 0x23, 0xc3, 0x18, 0x96, 0x05, 0x9a, 0x07, 0x12, 0x80, 0xe2, 0xeb, 0x27, 0xb2, 0x75,
   0x09, 0x83, 0x2c, 0x1a, 0x1b, 0x6e, 0x5a, 0xa0, 0x52, 0x3b, 0xd6, 0xb3, 0x29, 0xe3, 0x2f, 0x84,
   0x53, 0xd1, 0x00, 0xed, 0x20, 0xfc, 0xb1, 0x5b, 0x6a, 0xcb, 0xbe, 0x39, 0x4a, 0x4c, 0x58, 0xcf,
   0xd0, 0xef, 0xaa, 0xfb, 0x43, 0x4d, 0x33, 0x85, 0x45, 0xf9, 0x02, 0x7f, 0x50, 0x3c, 0x9f, 0xa8,
   0x51, 0xa3, 0x40, 0x8f, 0x92, 0x9d, 0x38, 0xf5, 0xbc, 0xb6, 0xda, 0x21, 0x10, 0xff, 0xf3, 0xd2,
   0xcd, 0x0c, 0x13, 0xec, 0x5f, 0x97, 0x44, 0x17, 0xc4, 0xa7, 0x7e, 0x3d, 0x64, 0x5d, 0x19, 0x73,
   0x60, 0x81, 0x4f, 0xdc, 0x22, 0x2a, 0x90, 0x88, 0x46, 0xee, 0xb8, 0x14, 0xde, 0x5e, 0x0b, 0xdb,
   0xe0, 0x32, 0x3a, 0x0a, 0x49, 0x06, 0x24, 0x5c, 0xc2, 0xd3, 0xac, 0x62, 0x91, 0x95, 0xe4, 0x79,
   0xe7, 0xc8, 0x37, 0x6d, 0x8d, 0xd5, 0x4e, 0xa9, 0x6c, 0x56, 0xf4, 0xea, 0x65, 0x7a, 0xae, 0x08,
   0xba, 0x78, 0x25, 0x2e, 0x1c, 0xa6, 0xb4, 0xc6, 0xe8, 0xdd, 0x74, 0x1f, 0x4b, 0xbd, 0x8b, 0x8a,
   0x70, 0x3e, 0xb5, 0x66, 0x48, 0x03, 0xf6, 0x0e, 0x61, 0x35, 0x57, 0xb9, 0x86, 0xc1, 0x1d, 0x9e,
   0xe1, 0xf8, 0x98, 0x11, 0x69, 0xd9, 0x8e, 0x94, 0x9b, 0x1e, 0x87, 0xe9, 0xce, 0x55, 0x28, 0xdf,
   0x8c, 0xa1, 0x89, 0x0d, 0xbf, 0xe6, 0x42, 0x68, 0x41, 0x99, 0x2d, 0x0f, 0xb0, 0x54, 0xbb, 0x16]

/-- Source: `void sub_bytes(state) { for(int i=0;i<16;i++) state[i]=sbox[state[i]]; }` -/
def sub_bytes (state : List Nat) : List Nat :=
  (List.range 16).foldl (fun st i => st.modify (fun x => sbox.getD x 0) i) state

/-- Source: `void shift_rows(state)`, the sixteen assignments through the temporary `t`,
in the order of the source. -/
def shift_rows (state : List Nat) : List Nat :=
  let t := state.getD 1 0
  let state := state.set 1 (state.getD 5 0)
  let state := state.set 5 (state.getD 9 0)
  let state := state.set 9 (state.getD 13 0)
  let state := state.set 13 t
  let t := state.getD 2 0
  let state := state.set 2 (state.getD 10 0)
  let state := state.set 10 t
  let t := state.getD 6 0
  let state := state.set 6 (state.getD 14 0)
  let state := state.set 14 t
  let t := state.getD 3 0
  let state := state.set 3 (state.getD 15 0)
  let state := state.set 15 (state.getD 11 0)
  let state := state.set 11 (state.getD 7 0)
  let state := state.set 7 t
  state

/-- The body of the loop of `gmul`, `n` iterations left:
`if(b&1)p^=a; uchar hi=a&0x80; a<<=1; if(hi)a^=0x1b; b>>=1;` -/
def gmul_loop : Nat → Nat → Nat → Nat → Nat
  | 0, p, _, _ => p
  | n + 1, p, a, b =>
    let p := if b &&& 1 ≠ 0 then p ^^^ a else p
    let hi := a &&& 0x80
    let a := (a <<< 1) % 256
    let a := if hi ≠ 0 then a ^^^ 0x1b else a
    let b := b >>> 1
    gmul_loop n p a b

/-- Source: `uchar gmul(uchar a, uchar b)`. The arguments are bytes at every call: a
constant and a byte of the state in `mix_columns`, `rcon % 256` and 2 in
`key_expansion`. -/
def gmul (a b : Nat) : Nat := gmul_loop 8 0 a b

/-- The body of the loop of `mix_columns` for column `i`. -/
def mix_column (state : List Nat) (i : Nat) : List Nat :=
  let t0 := state.getD (i * 4) 0
  let t1 := state.getD (i * 4 + 1) 0
  let t2 := state.getD (i * 4 + 2) 0
  let t3 := state.getD (i * 4 + 3) 0
  let state := state.set (i * 4) (gmul 0x02 t0 ^^^ gmul 0x03 t1 ^^^ t2 ^^^ t3)
  let state := state.set (i * 4 + 1) (t0 ^^^ gmul 0x02 t1 ^^^ gmul 0x03 t2 ^^^ t3)
  let state := state.set (i * 4 + 2) (t0 ^^^ t1 ^^^ gmul 0x02 t2 ^^^ gmul 0x03 t3)
  let state := state.set (i * 4 + 3) (gmul 0x03 t0 ^^^ t1 ^^^ t2 ^^^ gmul 0x02 t3)
  state

/-- Source: `void mix_columns(state)`. -/
def mix_columns (state : List Nat) : List Nat :=
  (List.range 4).foldl mix_column state

/-- Source: `add_round_key(state, roundKey)`: `state[i]^=roundKey[i]`, the round key
read from the device buffer at address `roundKey`. -/
def add_round_key (state : List Nat) (m : GlobalMem) (roundKey : Nat) : List Nat :=
  (List.range 16).foldl (fun st i => st.modify (fun x => x ^^^ m.load (roundKey + i)) i) state

/-- The state of the `while` loop of `key_expansion`. -/
structure KeyExpState where
  mem : GlobalMem
  i : Nat
  rcon : Nat

/-- The first half of an iteration of the `while` loop of `key_expansion`: the four
bytes `temp` (the previous word, rotated, substituted and mixed with `rcon` when
`i%16==0`) and the value of `rcon` after it. -/
def key_expansion_temp (roundKeys : Nat) (s : KeyExpState) : List Nat × Nat :=
  let temp := (List.range 4).foldl
    (fun temp j => temp.set j (s.mem.load (roundKeys + (s.i - 4 + j)))) [0, 0, 0, 0]
  if s.i % 16 = 0 then
    let t := temp.getD 0 0
    let temp := temp.set 0 ((sbox.getD (temp.getD 1 0) 0 ^^^ s.rcon) % 256)
    let rcon := gmul (s.rcon % 256) 2
    let temp := temp.set 1 (sbox.getD (temp.getD 2 0) 0)
    let temp := temp.set 2 (sbox.getD (temp.getD 3 0) 0)
    let temp := temp.set 3 (sbox.getD t 0)
    (temp, rcon)
  else (temp, s.rcon)

/-- One iteration of the `while` loop of `key_expansion`: four more bytes of schedule,
`for(int j=0;j<4;j++) roundKeys[i]=roundKeys[i-16]^temp[j],i++;`. -/
def key_expansion_body (roundKeys : Nat) (s : KeyExpState) : KeyExpState :=
  let tr := key_expansion_temp roundKeys s
  let mi := (List.range 4).foldl
    (fun (mi : GlobalMem × Nat) j =>
      (mi.1.store (roundKeys + mi.2)
        (mi.1.load (roundKeys + (mi.2 - 16)) ^^^ tr.1.getD j 0), mi.2 + 1))
    (s.mem, s.i)
  { mem := mi.1, i := mi.2, rcon := tr.2 }

/-- The loop `while(i<176){ ... }` of `key_expansion`, on fuel. -/
def key_expansion_loop (roundKeys : Nat) : Nat → KeyExpState → KeyExpState
  | 0, s => s
  | fuel + 1, s =>
    if s.i < 176 then key_expansion_loop roundKeys fuel (key_expansion_body roundKeys s)
    else s

/-- The state in which `key_expansion` enters its `while` loop:
`for(int i=0;i<16;i++) roundKeys[i]=key[i]; uchar temp[4]; int i=16,rcon=1;`. -/
def key_expansion_init (key : List Nat) (m : GlobalMem) (roundKeys : Nat) : KeyExpState :=
  { mem := (List.range 16).foldl (fun m i => m.store (roundKeys + i) (key.getD i 0)) m,
    i := 16, rcon := 1 }

/-- Source: `void key_expansion(key, roundKeys)`, `roundKeys` an address in the
device buffer; the call is recorded. Each pass of the loop advances `i` by 4 from 16,
so the fuel 176 is never used up (`key_expansion_loop_exit`). -/
def key_expansion (key : List Nat) (m : GlobalMem) (roundKeys : Nat) : GlobalMem :=
  let m : GlobalMem := { m with events := Event.call_key_expansion :: m.events }
  (key_expansion_loop roundKeys 176 (key_expansion_init key m roundKeys)).mem

/-- One pass of `for(int round=1;round<10;round++){...}`. -/
def aes_round (m : GlobalMem) (roundKeys : Nat) (state : List Nat) (round : Nat) : List Nat :=
  add_round_key (mix_columns (shift_rows (sub_bytes state))) m (roundKeys + round * 16)

/-- Source: `void aes128_encrypt_block(state, roundKeys)`. -/
def aes128_encrypt_block (state : List Nat) (m : GlobalMem) (roundKeys : Nat) : List Nat :=
  let state := add_round_key state m roundKeys
  let state := ((List.range 9).map (· + 1)).foldl (aes_round m roundKeys) state
  let state := sub_bytes state
  let state := shift_rows state
  add_round_key state m (roundKeys + 160)

/-- Source: `__kernel void aes_cbc_encrypt(in, out, num_blocks, key, iv)`, the work
item with `get_global_id(0) = idx`, run from start to end on the buffer `out`. -/
def aes_cbc_encrypt (inp : List Nat) (out : GlobalMem) (num_blocks : Nat)
    (key iv : List Nat) (idx : Nat) : GlobalMem :=
  if idx < num_blocks then
    let roundKeys := num_blocks * 16
    let out := key_expansion key out roundKeys
    let block := (List.range 16).foldl
      (fun b i => b.set i (inp.getD (idx * 16 + i) 0)) (List.replicate 16 0)
    let block :=
      if idx = 0 then
        (List.range 16).foldl (fun b i => b.modify (fun x => x ^^^ iv.getD i 0) i) block
      else
        (List.range 16).foldl
          (fun b i => b.modify (fun x => x ^^^ out.load ((idx - 1) * 16 + i)) i) block
    let block := aes128_encrypt_block block out roundKeys
    (List.range 16).foldl (fun o i => o.store (idx * 16 + i) (block.getD i 0)) out
  else out

/-! ## The host function -/

/-- The NDRange execution of the kernel: the work items run one at a time, each from
start to end, in the order `order` chosen by the runtime. -/
def run_work_items (inp : List Nat) (out : GlobalMem) (num_blocks : Nat)
    (key iv : List Nat) (order : List Nat) : GlobalMem :=
  order.foldl (fun m idx => aes_cbc_encrypt inp m num_blocks key iv idx) out

/-- The device buffer after `clFinish`, for the host call with input length `length`:
`buf_out` starts with the contents `dev` (`clCreateBuffer` without a host pointer
leaves them unspecified) and the work items `0 .. num_blocks-1` run in the order
`order`. All OpenCL calls are taken to succeed. -/
def device_run (inp : List Nat) (length : Nat) (key iv : List Nat)
    (dev : List Nat) (order : List Nat) : GlobalMem :=
  let num_blocks := length / 16
  run_work_items (inp.take length) (GlobalMem.ofList dev) num_blocks
    (key.take 16) (iv.take 16) order

/-- Source: `void aes_encrypt_cbc(in, out, length, key, iv)`: the caller's buffer `out`
after the call; `clEnqueueReadBuffer` copies `length` bytes of `buf_out` into it. -/
def aes_encrypt_cbc (inp out : List Nat) (length : Nat) (key iv : List Nat)
    (dev : List Nat) (order : List Nat) : List Nat :=
  let buf := device_run inp length key iv dev order
  (List.range length).foldl (fun o i => o.set i (buf.load i)) out

/-- The schedule `key_expansion` leaves in a fresh 176-byte buffer. -/
def key_schedule (key : List Nat) : GlobalMem :=
  key_expansion key (GlobalMem.ofList (List.replicate 176 0)) 0

/-! ## Vocabulary of the statements -/

/-- A block: sixteen bytes. -/
def IsBlock (l : List Nat) : Prop := l.length = 16 ∧ IsBytes l

instance (l : List Nat) : Decidable (IsBlock l) := by
  unfold IsBlock; infer_instance

/-- Block `i` of a byte sequence: the bytes at offsets `16*i .. 16*i+15`. -/
def block_at (l : List Nat) (i : Nat) : List Nat :=
  (List.range 16).map (fun j => l.getD (i * 16 + j) 0)

/-- Block `i` of the device buffer. -/
def GlobalMem.block (m : GlobalMem) (i : Nat) : List Nat :=
  (List.range 16).map (fun j => m.load (i * 16 + j))

/-- Bytewise XOR of two blocks. -/
def xor_block (a b : List Nat) : List Nat := List.zipWith (· ^^^ ·) a b

/-- The block cipher under the schedule that `key_expansion` derives from `key`:
`aes128_encrypt_block(block, key_expansion(key))`. -/
def encrypt_with_key (key block : List Nat) : List Nat :=
  aes128_encrypt_block block (key_schedule key) 0

/-- The 176 bytes at address `r` of the buffer are bytes. -/
def ScheduleOk (m : GlobalMem) (r : Nat) : Prop := ∀ j < 176, m.load (r + j) < 256

/-- The chaining input of work item `idx` as it finds it: the IV for the first block,
else the sixteen bytes of the buffer where block `idx - 1` of the ciphertext goes. -/
def chain_block (m : GlobalMem) (iv : List Nat) (idx : Nat) : List Nat :=
  if idx = 0 then (List.range 16).map (fun i => iv.getD i 0) else m.block (idx - 1)

/-! ## The key expansion word by word -/

/-- The round constants of the round keys 1 to 10. -/
def rcon_table : List Nat := [0x01, 0x02, 0x04, 0x08, 0x10, 0x20, 0x40, 0x80, 0x1b, 0x36]

/-- The value of `rcon` in `key_expansion` once `e` round keys have used it: it starts
at 1 and `rcon=gmul(rcon,2)` advances it. -/
def rcon_after : Nat → Nat
  | 0 => 1
  | e + 1 => gmul (rcon_after e % 256) 2

/-- Word `k` of the schedule at address `r`: the four bytes at `r + 4k .. r + 4k + 3`. -/
def schedule_word (m : GlobalMem) (r k : Nat) : List Nat :=
  [m.load (r + (4 * k + 0)), m.load (r + (4 * k + 1)), m.load (r + (4 * k + 2)),
   m.load (r + (4 * k + 3))]

/-- Rotate a word left by one byte. -/
def rot_word (w : List Nat) : List Nat := [w.getD 1 0, w.getD 2 0, w.getD 3 0, w.getD 0 0]

/-- Substitute the bytes of a word through the S-box. -/
def sub_word (w : List Nat) : List Nat := w.map (fun x => sbox.getD x 0)

/-- The function `g` of the Rijndael key expansion, as the specification words it: the
identity when `k` is not a multiple of 4, and else rotate, substitute, and XOR the first
byte with the round constant of round key `k / 4`. -/
def schedule_g (k : Nat) (w : List Nat) : List Nat :=
  if k % 4 = 0 then xor_block (sub_word (rot_word w)) [rcon_table.getD (k / 4 - 1) 0, 0, 0, 0]
  else w

/-! ## The field GF(2^8), as the specification words it -/

/-- The carry-less product of two polynomials over GF(2), `b` of degree below 8: the XOR
of `a` shifted left by `i` for every bit `i` that is set in `b`. -/
def clmul (a b : Nat) : Nat :=
  (List.range 8).foldl (fun acc i => acc ^^^ (if b.testBit i then a <<< i else 0)) 0

/-- One step of the division by `x^8 + x^4 + x^3 + x + 1` (0x11B): the term of degree
`8 + i`, when there is one, is cancelled by the modulus shifted left by `i`. -/
def poly_reduce_step (x i : Nat) : Nat := if x.testBit (8 + i) then x ^^^ (0x11B <<< i) else x

/-- The remainder modulo 0x11B of a polynomial of degree below 15: the terms of degree 14
down to 8 are cancelled in turn. -/
def poly_mod (x : Nat) : Nat := [6, 5, 4, 3, 2, 1, 0].foldl poly_reduce_step x

/-- The product in GF(2^8) = GF(2)[x] / (x^8 + x^4 + x^3 + x + 1): the carry-less product
reduced modulo 0x11B. -/
def gf256_mul (a b : Nat) : Nat := poly_mod (clmul a b)

/-- The part of `b` at bit `j`. -/
def bit_part (b j : Nat) : Nat := if b.testBit j then 2 ^ j else 0

/-! ## The S-box, as the standard defines it -/

/-- The inverses under `gmul` of the bytes 0 to 255, with 0 for 0; that they are is
checked in `sbox_rows`. -/
def gf_inv_table : List Nat :=
  [0x00, 0x01, 0x8d, 0xf6, 0xcb, 0x52, 0x7b, 0xd1, 0xe8, 0x4f, 0x29, 0xc0, 0xb0, 0xe1, 0xe5, 0xc7,
   0x74, 0xb4, 0xaa, 0x4b, 0x99, 0x2b, 0x60, 0x5f, 0x58, 0x3f, 0xfd, 0xcc, 0xff, 0x40, 0xee, 0xb2,
   0x3a, 0x6e, 0x5a, 0xf1, 0x55, 0x4d, 0xa8, 0xc9, 0xc1, 0x0a, 0x98, 0x15, 0x30, 0x44, 0xa2, 0xc2,
   0x2c, 0x45, 0x92, 0x6c, 0xf3, 0x39, 0x66, 0x42, 0xf2, 0x35, 0x20, 0x6f, 0x77, 0xbb, 0x59, 0x19,
   0x1d, 0xfe, 0x37, 0x67, 0x2d, 0x31, 0xf5, 0x69, 0xa7, 0x64, 0xab, 0x13, 0x54, 0x25, 0xe9, 0x09,
   0xed, 0x5c, 0x05, 0xca, 0x4c, 0x24, 0x87, 0xbf, 0x18, 0x3e, 0x22, 0xf0, 0x51, 0xec, 0x61, 0x17,
   0x16, 0x5e, 0xaf, 0xd3, 0x49, 0xa6, 0x36, 0x43, 0xf4, 0x47, 0x91, 0xdf, 0x33, 0x93, 0x21, 0x3b,
   0x79, 0xb7, 0x97, 0x85, 0x10, 0xb5, 0xba, 0x3c, 0xb6, 0x70, 0xd0, 0x06, 0xa1, 0xfa, 0x81, 0x82,
   0x83, 0x7e, 0x7f, 0x80, 0x96, 0x73, 0xbe, 0x56, 0x9b, 0x9e, 0x95, 0xd9, 0xf7, 0x02, 0xb9, 0xa4,
   0xde, 0x6a, 0x32, 0x6d, 0xd8, 0x8a, 0x84, 0x72, 0x2a, 0x14, 0x9f, 0x88, 0xf9, 0xdc, 0x89, 0x9a,
   0xfb, 0x7c, 0x2e, 0xc3, 0x8f, 0xb8, 0x65, 0x48, 0x26, 0xc8, 0x12, 0x4a, 0xce, 0xe7, 0xd2, 0x62,
   0x0c, 0xe0, 0x1f, 0xef, 0x11, 0x75, 0x78, 0x71, 0xa5, 0x8e, 0x76, 0x3d, 0xbd, 0xbc, 0x86, 0x57,
   0x0b, 0x28, 0x2f, 0xa3, 0xda, 0xd4, 0xe4, 0x0f, 0xa9, 0x27, 0x53, 0x04, 0x1b, 0xfc, 0xac, 0xe6,
   0x7a, 0x07, 0xae, 0x63, 0xc5, 0xdb, 0xe2, 0xea, 0x94, 0x8b, 0xc4, 0xd5, 0x9d, 0xf8, 0x90, 0x6b,
   0xb1, 0x0d, 0xd6, 0xeb, 0xc6, 0x0e, 0xcf, 0xad, 0x08, 0x4e, 0xd7, 0xe3, 0x5d, 0x50, 0x1e, 0xb3,
   0x5b, 0x23, 0x38, 0x34, 0x68, 0x46, 0x03, 0x8c, 0xdd, 0x9c, 0x7d, 0xa0, 0xcd, 0x1a, 0x41, 0x1c]

/-- Rotation of a byte left by `k` bits, `k` from 1 to 7. -/
def rotl8 (b k : Nat) : Nat := ((b <<< k) ||| (b >>> (8 - k))) % 256

/-- The affine map of the S-box. -/
def sbox_affine (b : Nat) : Nat :=
  b ^^^ rotl8 b 1 ^^^ rotl8 b 2 ^^^ rotl8 b 3 ^^^ rotl8 b 4 ^^^ 0x63

/-! # Proofs -/

theorem range16 : List.range 16 = [0,1,2,3,4,5,6,7,8,9,10,11,12,13,14,15] := by decide

theorem list16_eq {l : List Nat} (h : l.length = 16) :
    l = [l.getD 0 0, l.getD 1 0, l.getD 2 0, l.getD 3 0, l.getD 4 0, l.getD 5 0, l.getD 6 0,
      l.getD 7 0, l.getD 8 0, l.getD 9 0, l.getD 10 0, l.getD 11 0, l.getD 12 0, l.getD 13 0,
      l.getD 14 0, l.getD 15 0] := by
  match l, h with
  | [a0, a1, a2, a3, a4, a5, a6, a7, a8, a9, a10, a11, a12, a13, a14, a15], _ => rfl

theorem sub_bytes_eq (a0 a1 a2 a3 a4 a5 a6 a7 a8 a9 a10 a11 a12 a13 a14 a15 : Nat) :
    sub_bytes [a0, a1, a2, a3, a4, a5, a6, a7, a8, a9, a10, a11, a12, a13, a14, a15] =
      [sbox.getD a0 0, sbox.getD a1 0, sbox.getD a2 0, sbox.getD a3 0, sbox.getD a4 0,
       sbox.getD a5 0, sbox.getD a6 0, sbox.getD a7 0, sbox.getD a8 0, sbox.getD a9 0,
       sbox.getD a10 0, sbox.getD a11 0, sbox.getD a12 0, sbox.getD a13 0, sbox.getD a14 0,
       sbox.getD a15 0] := rfl

theorem shift_rows_eq (a0 a1 a2 a3 a4 a5 a6 a7 a8 a9 a10 a11 a12 a13 a14 a15 : Nat) :
    shift_rows [a0, a1, a2, a3, a4, a5, a6, a7, a8, a9, a10, a11, a12, a13, a14, a15] =
      [a0, a5, a10, a15, a4, a9, a14, a3, a8, a13, a2, a7, a12, a1, a6, a11] := rfl

theorem range4 : List.range 4 = [0, 1, 2, 3] := by decide

theorem mix_column_eq (a0 a1 a2 a3 a4 a5 a6 a7 a8 a9 a10 a11 a12 a13 a14 a15 : Nat) :
    mix_column [a0, a1, a2, a3, a4, a5, a6, a7, a8, a9, a10, a11, a12, a13, a14, a15] 0 =
      [gmul 2 a0 ^^^ gmul 3 a1 ^^^ a2 ^^^ a3, a0 ^^^ gmul 2 a1 ^^^ gmul 3 a2 ^^^ a3, a0 ^^^ a1 ^^^ gmul 2 a2 ^^^ gmul 3 a3, gmul 3 a0 ^^^ a1 ^^^ a2 ^^^ gmul 2 a3,
       a4, a5, a6, a7,
       a8, a9, a10, a11,
       a12, a13, a14, a15] ∧
    mix_column [a0, a1, a2, a3, a4, a5, a6, a7, a8, a9, a10, a11, a12, a13, a14, a15] 1 =
      [a0, a1, a2, a3,
       gmul 2 a4 ^^^ gmul 3 a5 ^^^ a6 ^^^ a7, a4 ^^^ gmul 2 a5 ^^^ gmul 3 a6 ^^^ a7, a4 ^^^ a5 ^^^ gmul 2 a6 ^^^ gmul 3 a7, gmul 3 a4 ^^^ a5 ^^^ a6 ^^^ gmul 2 a7,
       a8, a9, a10, a11,
       a12, a13, a14, a15] ∧
    mix_column [a0, a1, a2, a3, a4, a5, a6, a7, a8, a9, a10, a11, a12, a13, a14, a15] 2 =
      [a0, a1, a2, a3,
       a4, a5, a6, a7,
       gmul 2 a8 ^^^ gmul 3 a9 ^^^ a10 ^^^ a11, a8 ^^^ gmul 2 a9 ^^^ gmul 3 a10 ^^^ a11, a8 ^^^ a9 ^^^ gmul 2 a10 ^^^ gmul 3 a11, gmul 3 a8 ^^^ a9 ^^^ a10 ^^^ gmul 2 a11,
       a12, a13, a14, a15] ∧
    mix_column [a0, a1, a2, a3, a4, a5, a6, a7, a8, a9, a10, a11, a12, a13, a14, a15] 3 =
      [a0, a1, a2, a3,
       a4, a5, a6, a7,
       a8, a9, a10, a11,
       gmul 2 a12 ^^^ gmul 3 a13 ^^^ a14 ^^^ a15, a12 ^^^ gmul 2 a13 ^^^ gmul 3 a14 ^^^ a15, a12 ^^^ a13 ^^^ gmul 2 a14 ^^^ gmul 3 a15, gmul 3 a12 ^^^ a13 ^^^ a14 ^^^ gmul 2 a15] :=
  ⟨rfl, rfl, rfl, rfl⟩

theorem mix_columns_eq (a0 a1 a2 a3 a4 a5 a6 a7 a8 a9 a10 a11 a12 a13 a14 a15 : Nat) :
    mix_columns [a0, a1, a2, a3, a4, a5, a6, a7, a8, a9, a10, a11, a12, a13, a14, a15] =
      [gmul 2 a0 ^^^ gmul 3 a1 ^^^ a2 ^^^ a3, a0 ^^^ gmul 2 a1 ^^^ gmul 3 a2 ^^^ a3,
       a0 ^^^ a1 ^^^ gmul 2 a2 ^^^ gmul 3 a3, gmul 3 a0 ^^^ a1 ^^^ a2 ^^^ gmul 2 a3,
       gmul 2 a4 ^^^ gmul 3 a5 ^^^ a6 ^^^ a7, a4 ^^^ gmul 2 a5 ^^^ gmul 3 a6 ^^^ a7,
       a4 ^^^ a5 ^^^ gmul 2 a6 ^^^ gmul 3 a7, gmul 3 a4 ^^^ a5 ^^^ a6 ^^^ gmul 2 a7,
       gmul 2 a8 ^^^ gmul 3 a9 ^^^ a10 ^^^ a11, a8 ^^^ gmul 2 a9 ^^^ gmul 3 a10 ^^^ a11,
       a8 ^^^ a9 ^^^ gmul 2 a10 ^^^ gmul 3 a11, gmul 3 a8 ^^^ a9 ^^^ a10 ^^^ gmul 2 a11,
       gmul 2 a12 ^^^ gmul 3 a13 ^^^ a14 ^^^ a15, a12 ^^^ gmul 2 a13 ^^^ gmul 3 a14 ^^^ a15,
       a12 ^^^ a13 ^^^ gmul 2 a14 ^^^ gmul 3 a15, gmul 3 a12 ^^^ a13 ^^^ a14 ^^^ gmul 2 a15] := by
  simp only [mix_columns, range4, List.foldl, (mix_column_eq _ _ _ _ _ _ _ _ _ _ _ _ _ _ _ _).1,
    (mix_column_eq _ _ _ _ _ _ _ _ _ _ _ _ _ _ _ _).2.1, (mix_column_eq _ _ _ _ _ _ _ _ _ _ _ _ _ _ _ _).2.2.1,
    (mix_column_eq _ _ _ _ _ _ _ _ _ _ _ _ _ _ _ _).2.2.2]

theorem add_round_key_eq (m : GlobalMem) (r : Nat)
    (a0 a1 a2 a3 a4 a5 a6 a7 a8 a9 a10 a11 a12 a13 a14 a15 : Nat) :
    add_round_key [a0, a1, a2, a3, a4, a5, a6, a7, a8, a9, a10, a11, a12, a13, a14, a15] m r =
      [a0 ^^^ m.load (r + 0), a1 ^^^ m.load (r + 1), a2 ^^^ m.load (r + 2),
       a3 ^^^ m.load (r + 3), a4 ^^^ m.load (r + 4), a5 ^^^ m.load (r + 5),
       a6 ^^^ m.load (r + 6), a7 ^^^ m.load (r + 7), a8 ^^^ m.load (r + 8),
       a9 ^^^ m.load (r + 9), a10 ^^^ m.load (r + 10), a11 ^^^ m.load (r + 11),
       a12 ^^^ m.load (r + 12), a13 ^^^ m.load (r + 13), a14 ^^^ m.load (r + 14),
       a15 ^^^ m.load (r + 15)] := rfl

/-! ## Bytes -/

theorem xor_lt_256 {x y : Nat} (hx : x < 256) (hy : y < 256) : x ^^^ y < 256 :=
  @Nat.xor_lt_two_pow x y 8 hx hy

theorem IsBytes.getD {l : List Nat} (h : IsBytes l) (i : Nat) : l.getD i 0 < 256 := by
  rw [List.getD_eq_getElem?_getD]
  cases hi : l[i]? with
  | none => simp
  | some x => simpa using h x (List.getElem?_mem hi)

/-! ## The S-box -/

theorem sbox_length : sbox.length = 256 := by decide!

/-- The bit set of the elements of a list, as the loop that collects it. -/
theorem testBit_foldl_or (l : List Nat) (acc y : Nat) :
    (l.foldl (fun acc x => acc ||| 1 <<< x) acc).testBit y = (acc.testBit y || decide (y ∈ l)) := by
  induction l generalizing acc with
  | nil => simp
  | cons x xs ih =>
    simp only [List.foldl_cons]
    rw [ih, Nat.testBit_or, Nat.one_shiftLeft, Nat.testBit_two_pow]
    by_cases h : x = y
    · subst h; simp
    · have h2 : y ≠ x := fun e => h e.symm
      simp [h, h2]

theorem sbox_bits : sbox.foldl (fun acc x => acc ||| 1 <<< x) 0 = 2 ^ 256 - 1 := by decide!

/-- Every byte is in the S-box. -/
theorem sbox_surj (y : Nat) (hy : y < 256) : y ∈ sbox := by
  have h := testBit_foldl_or sbox 0 y
  rw [sbox_bits, Nat.testBit_two_pow_sub_one] at h
  simpa [hy] using h

theorem sbox_nodup : sbox.Nodup := by
  have hsub : List.range 256 ⊆ sbox := fun y hy => sbox_surj y (List.mem_range.1 hy)
  have hperm := (List.subperm_of_subset (List.nodup_range 256) hsub).perm_of_length_le
    (by rw [sbox_length, List.length_range])
  exact hperm.nodup_iff.1 (List.nodup_range 256)

theorem sbox_all_lt : ∀ x ∈ sbox, x < 256 := by decide!

theorem sbox_lt (x : Nat) : sbox.getD x 0 < 256 := IsBytes.getD sbox_all_lt x

theorem sbox_inj {x y : Nat} (hx : x < 256) (hy : y < 256)
    (h : sbox.getD x 0 = sbox.getD y 0) : x = y := by
  have hx2 : x < sbox.length := by rw [sbox_length]; exact hx
  have hy2 : y < sbox.length := by rw [sbox_length]; exact hy
  rw [List.getD_eq_getElem _ _ hx2, List.getD_eq_getElem _ _ hy2] at h
  exact (List.Nodup.getElem_inj_iff sbox_nodup).1 h

/-! ## The field multiplication -/

theorem gmul_loop_acc (n p a b : Nat) : gmul_loop n p a b = p ^^^ gmul_loop n 0 a b := by
  induction n generalizing p a b with
  | zero => simp [gmul_loop]
  | succ n ih =>
    simp only [gmul_loop]
    rw [ih, ih (if b &&& 1 ≠ 0 then 0 ^^^ a else 0)]
    split <;> simp [Nat.xor_assoc]

theorem gmul_loop_xor (n a b c : Nat) :
    gmul_loop n 0 a (b ^^^ c) = gmul_loop n 0 a b ^^^ gmul_loop n 0 a c := by
  induction n generalizing a b c with
  | zero => simp [gmul_loop]
  | succ n ih =>
    simp only [gmul_loop]
    rw [gmul_loop_acc, gmul_loop_acc n (if b &&& 1 ≠ 0 then 0 ^^^ a else 0),
      gmul_loop_acc n (if c &&& 1 ≠ 0 then 0 ^^^ a else 0)]
    have hs : (b ^^^ c) >>> 1 = b >>> 1 ^^^ c >>> 1 := by
      simp only [Nat.shiftRight_eq_div_pow, pow_one, Nat.xor_div_two]
    rw [hs, ih]
    generalize gmul_loop n 0 _ (b >>> 1) = u
    generalize gmul_loop n 0 _ (c >>> 1) = v
    have hb := Nat.mod_two_eq_zero_or_one b
    have hc := Nat.mod_two_eq_zero_or_one c
    have hbc : (b ^^^ c) % 2 = (b % 2) ^^^ (c % 2) := by
      have := @Nat.and_xor_distrib_right b c 1
      simpa [Nat.and_one_is_mod] using this
    simp only [Nat.and_one_is_mod, hbc, Nat.zero_xor]
    rcases hb with hb | hb <;> rcases hc with hc | hc <;> simp [hb, hc]
    · ac_rfl
    · ac_rfl
    · rw [show a ^^^ u ^^^ (a ^^^ v) = (a ^^^ a) ^^^ (u ^^^ v) by ac_rfl]; simp

/-- The product is additive in its second argument. -/
theorem gmul_xor (a b c : Nat) : gmul a (b ^^^ c) = gmul a b ^^^ gmul a c :=
  gmul_loop_xor 8 a b c

theorem gmul_loop_lt (n : Nat) {p a : Nat} (b : Nat) (hp : p < 256) (ha : a < 256) :
    gmul_loop n p a b < 256 := by
  induction n generalizing p a b with
  | zero => simpa [gmul_loop] using hp
  | succ n ih =>
    simp only [gmul_loop]
    apply ih
    · split
      · exact xor_lt_256 hp ha
      · exact hp
    · split
      · exact xor_lt_256 (Nat.mod_lt _ (by decide)) (by decide)
      · exact Nat.mod_lt _ (by decide)

theorem gmul_lt {a : Nat} (b : Nat) (ha : a < 256) : gmul a b < 256 :=
  gmul_loop_lt 8 b (by decide) ha

/-! ## MixColumns is invertible on bytes -/

theorem mix_inv_facts : ∀ x < 256,
    (gmul 14 (gmul 2 x) ^^^ gmul 11 x ^^^ gmul 13 x ^^^ gmul 9 (gmul 3 x) = x) ∧
    (gmul 14 (gmul 3 x) ^^^ gmul 11 (gmul 2 x) ^^^ gmul 13 x ^^^ gmul 9 x = 0) ∧
    (gmul 14 x ^^^ gmul 11 (gmul 3 x) ^^^ gmul 13 (gmul 2 x) ^^^ gmul 9 x = 0) ∧
    (gmul 14 x ^^^ gmul 11 x ^^^ gmul 13 (gmul 3 x) ^^^ gmul 9 (gmul 2 x) = 0) := by
  decide!

/-- The inverse matrix (14, 11, 13, 9) recovers the first byte of a mixed column. -/
theorem mix_col_recover {a b c d : Nat} (ha : a < 256) (hb : b < 256) (hc : c < 256)
    (hd : d < 256) :
    gmul 14 (gmul 2 a ^^^ gmul 3 b ^^^ c ^^^ d) ^^^ gmul 11 (gmul 2 b ^^^ gmul 3 c ^^^ d ^^^ a)
      ^^^ gmul 13 (gmul 2 c ^^^ gmul 3 d ^^^ a ^^^ b)
      ^^^ gmul 9 (gmul 2 d ^^^ gmul 3 a ^^^ b ^^^ c) = a := by
  have fa := (mix_inv_facts a ha).1
  have fb := (mix_inv_facts b hb).2.1
  have fc := (mix_inv_facts c hc).2.2.1
  have fd := (mix_inv_facts d hd).2.2.2
  simp only [gmul_xor]
  calc _ = (gmul 14 (gmul 2 a) ^^^ gmul 11 a ^^^ gmul 13 a ^^^ gmul 9 (gmul 3 a)) ^^^
          (gmul 14 (gmul 3 b) ^^^ gmul 11 (gmul 2 b) ^^^ gmul 13 b ^^^ gmul 9 b) ^^^
          (gmul 14 c ^^^ gmul 11 (gmul 3 c) ^^^ gmul 13 (gmul 2 c) ^^^ gmul 9 c) ^^^
          (gmul 14 d ^^^ gmul 11 d ^^^ gmul 13 (gmul 3 d) ^^^ gmul 9 (gmul 2 d)) := by ac_rfl
    _ = a := by rw [fa, fb, fc, fd]; simp

theorem mix_col_inj {a0 a1 a2 a3 b0 b1 b2 b3 : Nat}
    (ha0 : a0 < 256) (ha1 : a1 < 256) (ha2 : a2 < 256) (ha3 : a3 < 256)
    (hb0 : b0 < 256) (hb1 : b1 < 256) (hb2 : b2 < 256) (hb3 : b3 < 256)
    (h0 : gmul 2 a0 ^^^ gmul 3 a1 ^^^ a2 ^^^ a3 = gmul 2 b0 ^^^ gmul 3 b1 ^^^ b2 ^^^ b3)
    (h1 : a0 ^^^ gmul 2 a1 ^^^ gmul 3 a2 ^^^ a3 = b0 ^^^ gmul 2 b1 ^^^ gmul 3 b2 ^^^ b3)
    (h2 : a0 ^^^ a1 ^^^ gmul 2 a2 ^^^ gmul 3 a3 = b0 ^^^ b1 ^^^ gmul 2 b2 ^^^ gmul 3 b3)
    (h3 : gmul 3 a0 ^^^ a1 ^^^ a2 ^^^ gmul 2 a3 = gmul 3 b0 ^^^ b1 ^^^ b2 ^^^ gmul 2 b3) :
    a0 = b0 ∧ a1 = b1 ∧ a2 = b2 ∧ a3 = b3 := by
  have g1 : gmul 2 a1 ^^^ gmul 3 a2 ^^^ a3 ^^^ a0 = gmul 2 b1 ^^^ gmul 3 b2 ^^^ b3 ^^^ b0 := by
    rw [show gmul 2 a1 ^^^ gmul 3 a2 ^^^ a3 ^^^ a0 = a0 ^^^ gmul 2 a1 ^^^ gmul 3 a2 ^^^ a3 by
      ac_rfl, h1]
    ac_rfl
  have g2 : gmul 2 a2 ^^^ gmul 3 a3 ^^^ a0 ^^^ a1 = gmul 2 b2 ^^^ gmul 3 b3 ^^^ b0 ^^^ b1 := by
    rw [show gmul 2 a2 ^^^ gmul 3 a3 ^^^ a0 ^^^ a1 = a0 ^^^ a1 ^^^ gmul 2 a2 ^^^ gmul 3 a3 by
      ac_rfl, h2]
    ac_rfl
  have g3 : gmul 2 a3 ^^^ gmul 3 a0 ^^^ a1 ^^^ a2 = gmul 2 b3 ^^^ gmul 3 b0 ^^^ b1 ^^^ b2 := by
    rw [show gmul 2 a3 ^^^ gmul 3 a0 ^^^ a1 ^^^ a2 = gmul 3 a0 ^^^ a1 ^^^ a2 ^^^ gmul 2 a3 by
      ac_rfl, h3]
    ac_rfl
  refine ⟨?_, ?_, ?_, ?_⟩
  · rw [← mix_col_recover ha0 ha1 ha2 ha3, ← mix_col_recover hb0 hb1 hb2 hb3, h0, g1, g2, g3]
  · rw [← mix_col_recover ha1 ha2 ha3 ha0, ← mix_col_recover hb1 hb2 hb3 hb0, h0, g1, g2, g3]
  · rw [← mix_col_recover ha2 ha3 ha0 ha1, ← mix_col_recover hb2 hb3 hb0 hb1, h0, g1, g2, g3]
  · rw [← mix_col_recover ha3 ha0 ha1 ha2, ← mix_col_recover hb3 hb0 hb1 hb2, h0, g1, g2, g3]

/-! ## Blocks -/

theorem list16_exists {l : List Nat} (h : l.length = 16) :
    ∃ a0 a1 a2 a3 a4 a5 a6 a7 a8 a9 a10 a11 a12 a13 a14 a15 : Nat,
      l = [a0, a1, a2, a3, a4, a5, a6, a7, a8, a9, a10, a11, a12, a13, a14, a15] :=
  ⟨_, _, _, _, _, _, _, _, _, _, _, _, _, _, _, _, list16_eq h⟩

theorem isBytes16 (a0 a1 a2 a3 a4 a5 a6 a7 a8 a9 a10 a11 a12 a13 a14 a15 : Nat) :
    IsBytes [a0, a1, a2, a3, a4, a5, a6, a7, a8, a9, a10, a11, a12, a13, a14, a15] ↔
      a0 < 256 ∧ a1 < 256 ∧ a2 < 256 ∧ a3 < 256 ∧ a4 < 256 ∧ a5 < 256 ∧ a6 < 256 ∧ a7 < 256 ∧
      a8 < 256 ∧ a9 < 256 ∧ a10 < 256 ∧ a11 < 256 ∧ a12 < 256 ∧ a13 < 256 ∧ a14 < 256 ∧
      a15 < 256 := by
  simp [IsBytes]

theorem sub_bytes_block {st : List Nat} (h : st.length = 16) : IsBlock (sub_bytes st) := by
  obtain ⟨a0, a1, a2, a3, a4, a5, a6, a7, a8, a9, a10, a11, a12, a13, a14, a15, rfl⟩ := list16_exists h
  rw [sub_bytes_eq]
  refine ⟨rfl, ?_⟩
  simp only [isBytes16, sbox_lt, and_self]

theorem shift_rows_block {st : List Nat} (h : IsBlock st) : IsBlock (shift_rows st) := by
  obtain ⟨a0, a1, a2, a3, a4, a5, a6, a7, a8, a9, a10, a11, a12, a13, a14, a15, rfl⟩ := list16_exists h.1
  have hb := (isBytes16 ..).1 h.2
  rw [shift_rows_eq]
  refine ⟨rfl, ?_⟩
  rw [isBytes16]
  omega

theorem mix_columns_block {st : List Nat} (h : IsBlock st) : IsBlock (mix_columns st) := by
  obtain ⟨a0, a1, a2, a3, a4, a5, a6, a7, a8, a9, a10, a11, a12, a13, a14, a15, rfl⟩ := list16_exists h.1
  have hb := (isBytes16 ..).1 h.2
  rw [mix_columns_eq]
  refine ⟨rfl, ?_⟩
  rw [isBytes16]
  have h2 : ∀ x, gmul 2 x < 256 := fun x => gmul_lt x (by decide)
  have h3 : ∀ x, gmul 3 x < 256 := fun x => gmul_lt x (by decide)
  obtain ⟨_, _, _, _, _, _, _, _, _, _, _, _, _, _, _, _⟩ := hb
  refine ⟨?_, ?_, ?_, ?_, ?_, ?_, ?_, ?_, ?_, ?_, ?_, ?_, ?_, ?_, ?_, ?_⟩ <;>
    repeat (first | assumption | apply h2 | apply h3 | apply xor_lt_256)

theorem add_round_key_block {st : List Nat} (m : GlobalMem) (r : Nat) (h : IsBlock st)
    (hk : ∀ i < 16, m.load (r + i) < 256) : IsBlock (add_round_key st m r) := by
  obtain ⟨a0, a1, a2, a3, a4, a5, a6, a7, a8, a9, a10, a11, a12, a13, a14, a15, rfl⟩ := list16_exists h.1
  have hb := (isBytes16 ..).1 h.2
  rw [add_round_key_eq]
  refine ⟨rfl, ?_⟩
  rw [isBytes16]
  obtain ⟨_, _, _, _, _, _, _, _, _, _, _, _, _, _, _, _⟩ := hb
  refine ⟨?_, ?_, ?_, ?_, ?_, ?_, ?_, ?_, ?_, ?_, ?_, ?_, ?_, ?_, ?_, ?_⟩ <;>
    (apply xor_lt_256
     · assumption
     · exact hk _ (by decide))

/-! ## Each step of a round is injective on blocks -/

theorem sub_bytes_inj {s t : List Nat} (hs : IsBlock s) (ht : IsBlock t)
    (h : sub_bytes s = sub_bytes t) : s = t := by
  obtain ⟨a0, a1, a2, a3, a4, a5, a6, a7, a8, a9, a10, a11, a12, a13, a14, a15, rfl⟩ := list16_exists hs.1
  obtain ⟨b0, b1, b2, b3, b4, b5, b6, b7, b8, b9, b10, b11, b12, b13, b14, b15, rfl⟩ := list16_exists ht.1
  have ha := (isBytes16 ..).1 hs.2
  have hb := (isBytes16 ..).1 ht.2
  simp only [sub_bytes_eq, List.cons.injEq, and_true] at h
  obtain ⟨_, _, _, _, _, _, _, _, _, _, _, _, _, _, _, _⟩ := ha
  obtain ⟨_, _, _, _, _, _, _, _, _, _, _, _, _, _, _, _⟩ := hb
  obtain ⟨_, _, _, _, _, _, _, _, _, _, _, _, _, _, _, _⟩ := h
  simp only [List.cons.injEq, and_true]
  refine ⟨?_, ?_, ?_, ?_, ?_, ?_, ?_, ?_, ?_, ?_, ?_, ?_, ?_, ?_, ?_, ?_⟩ <;>
    (apply sbox_inj <;> assumption)

theorem shift_rows_inj {s t : List Nat} (hs : s.length = 16) (ht : t.length = 16)
    (h : shift_rows s = shift_rows t) : s = t := by
  obtain ⟨a0, a1, a2, a3, a4, a5, a6, a7, a8, a9, a10, a11, a12, a13, a14, a15, rfl⟩ := list16_exists hs
  obtain ⟨b0, b1, b2, b3, b4, b5, b6, b7, b8, b9, b10, b11, b12, b13, b14, b15, rfl⟩ := list16_exists ht
  simp only [shift_rows_eq, List.cons.injEq, and_true] at h
  obtain ⟨_, _, _, _, _, _, _, _, _, _, _, _, _, _, _, _⟩ := h
  subst_vars
  rfl

theorem mix_columns_inj {s t : List Nat} (hs : IsBlock s) (ht : IsBlock t)
    (h : mix_columns s = mix_columns t) : s = t := by
  obtain ⟨a0, a1, a2, a3, a4, a5, a6, a7, a8, a9, a10, a11, a12, a13, a14, a15, rfl⟩ := list16_exists hs.1
  obtain ⟨b0, b1, b2, b3, b4, b5, b6, b7, b8, b9, b10, b11, b12, b13, b14, b15, rfl⟩ := list16_exists ht.1
  have ha := (isBytes16 ..).1 hs.2
  have hb := (isBytes16 ..).1 ht.2
  simp only [mix_columns_eq, List.cons.injEq, and_true] at h
  obtain ⟨x0, x1, x2, x3, x4, x5, x6, x7, x8, x9, x10, x11, x12, x13, x14, x15⟩ := ha
  obtain ⟨y0, y1, y2, y3, y4, y5, y6, y7, y8, y9, y10, y11, y12, y13, y14, y15⟩ := hb
  obtain ⟨e0, e1, e2, e3, e4, e5, e6, e7, e8, e9, e10, e11, e12, e13, e14, e15⟩ := h
  obtain ⟨rfl, rfl, rfl, rfl⟩ := mix_col_inj x0 x1 x2 x3 y0 y1 y2 y3 e0 e1 e2 e3
  obtain ⟨rfl, rfl, rfl, rfl⟩ := mix_col_inj x4 x5 x6 x7 y4 y5 y6 y7 e4 e5 e6 e7
  obtain ⟨rfl, rfl, rfl, rfl⟩ := mix_col_inj x8 x9 x10 x11 y8 y9 y10 y11 e8 e9 e10 e11
  obtain ⟨rfl, rfl, rfl, rfl⟩ := mix_col_inj x12 x13 x14 x15 y12 y13 y14 y15 e12 e13 e14 e15
  rfl

theorem add_round_key_inj {s t : List Nat} (m : GlobalMem) (r : Nat) (hs : s.length = 16)
    (ht : t.length = 16) (h : add_round_key s m r = add_round_key t m r) : s = t := by
  obtain ⟨a0, a1, a2, a3, a4, a5, a6, a7, a8, a9, a10, a11, a12, a13, a14, a15, rfl⟩ := list16_exists hs
  obtain ⟨b0, b1, b2, b3, b4, b5, b6, b7, b8, b9, b10, b11, b12, b13, b14, b15, rfl⟩ := list16_exists ht
  simp only [add_round_key_eq, List.cons.injEq, and_true, Nat.xor_left_inj] at h
  obtain ⟨_, _, _, _, _, _, _, _, _, _, _, _, _, _, _, _⟩ := h
  subst_vars
  rfl

/-! ## The block cipher -/

theorem foldl_congr_mem {α β : Type} (f g : α → β → α) (l : List β) (a : α)
    (h : ∀ x ∈ l, ∀ s, f s x = g s x) : l.foldl f a = l.foldl g a := by
  induction l generalizing a with
  | nil => rfl
  | cons x xs ih =>
    simp only [List.foldl_cons]
    rw [h x (List.mem_cons_self x xs) a]
    exact ih _ (fun y hy s => h y (List.mem_cons_of_mem x hy) s)

/-- The round keys are read and nothing else: two buffers that hold the same sixteen
bytes give the same `add_round_key`. -/
theorem add_round_key_congr (st : List Nat) (m n : GlobalMem) (r q : Nat)
    (h : ∀ i < 16, m.load (r + i) = n.load (q + i)) :
    add_round_key st m r = add_round_key st n q := by
  unfold add_round_key
  apply foldl_congr_mem
  intro i hi s
  rw [h i (List.mem_range.1 hi)]

theorem mem_rounds {r : Nat} (h : r ∈ (List.range 9).map (· + 1)) : r < 10 := by
  obtain ⟨a, ha, rfl⟩ := List.mem_map.1 h
  have := List.mem_range.1 ha
  omega

theorem aes_round_congr (st : List Nat) (m n : GlobalMem) (r q round : Nat)
    (hr : round < 10) (h : ∀ j < 176, m.load (r + j) = n.load (q + j)) :
    aes_round m r st round = aes_round n q st round := by
  unfold aes_round
  apply add_round_key_congr
  intro i hi
  have := h (round * 16 + i) (by omega)
  simpa [Nat.add_assoc] using this

/-- The block cipher reads the 176 bytes of schedule and nothing else of the buffer. -/
theorem aes128_encrypt_block_congr (st : List Nat) (m n : GlobalMem) (r q : Nat)
    (h : ∀ j < 176, m.load (r + j) = n.load (q + j)) :
    aes128_encrypt_block st m r = aes128_encrypt_block st n q := by
  unfold aes128_encrypt_block
  have h0 : add_round_key st m r = add_round_key st n q :=
    add_round_key_congr _ _ _ _ _ (fun i hi => h i (by omega))
  have h1 : ∀ s, ((List.range 9).map (· + 1)).foldl (aes_round m r) s =
      ((List.range 9).map (· + 1)).foldl (aes_round n q) s := fun s =>
    foldl_congr_mem _ _ _ _ (fun x hx s => aes_round_congr s m n r q x (mem_rounds hx) h)
  simp only [h0, h1]
  apply add_round_key_congr
  intro i hi
  have := h (160 + i) (by omega)
  simpa [Nat.add_assoc] using this

theorem ScheduleOk.round {m : GlobalMem} {r : Nat} (h : ScheduleOk m r) {round : Nat}
    (hr : round < 11) : ∀ i < 16, m.load (r + round * 16 + i) < 256 := by
  intro i hi
  have := h (round * 16 + i) (by omega)
  simpa [Nat.add_assoc] using this

theorem aes_round_block {m : GlobalMem} {r : Nat} (hk : ScheduleOk m r) {round : Nat}
    (hr : round < 10) {st : List Nat} (h : IsBlock st) : IsBlock (aes_round m r st round) := by
  unfold aes_round
  exact add_round_key_block _ _
    (mix_columns_block (shift_rows_block (sub_bytes_block h.1))) (hk.round (by omega))

theorem aes_round_inj {m : GlobalMem} {r : Nat} {round : Nat} {s t : List Nat}
    (hs : IsBlock s) (ht : IsBlock t) (h : aes_round m r s round = aes_round m r t round) :
    s = t := by
  unfold aes_round at h
  have bs := shift_rows_block (sub_bytes_block hs.1)
  have bt := shift_rows_block (sub_bytes_block ht.1)
  have h1 := add_round_key_inj _ _ (mix_columns_block bs).1 (mix_columns_block bt).1 h
  have h2 := mix_columns_inj bs bt h1
  have h3 := shift_rows_inj (sub_bytes_block hs.1).1 (sub_bytes_block ht.1).1 h2
  exact sub_bytes_inj hs ht h3

theorem rounds_block {m : GlobalMem} {r : Nat} (hk : ScheduleOk m r) (l : List Nat)
    (hl : ∀ x ∈ l, x < 10) {st : List Nat} (h : IsBlock st) :
    IsBlock (l.foldl (aes_round m r) st) := by
  induction l generalizing st with
  | nil => exact h
  | cons x xs ih =>
    simp only [List.foldl_cons]
    exact ih (fun y hy => hl y (List.mem_cons_of_mem x hy))
      (aes_round_block hk (hl x (List.mem_cons_self x xs)) h)

theorem rounds_inj {m : GlobalMem} {r : Nat} (hk : ScheduleOk m r) (l : List Nat)
    (hl : ∀ x ∈ l, x < 10) {s t : List Nat} (hs : IsBlock s) (ht : IsBlock t)
    (h : l.foldl (aes_round m r) s = l.foldl (aes_round m r) t) : s = t := by
  induction l generalizing s t with
  | nil => exact h
  | cons x xs ih =>
    simp only [List.foldl_cons] at h
    have hx := hl x (List.mem_cons_self x xs)
    exact aes_round_inj hs ht
      (ih (fun y hy => hl y (List.mem_cons_of_mem x hy)) (aes_round_block hk hx hs)
        (aes_round_block hk hx ht) h)

/-- The ciphertext block is a block. -/
theorem aes128_encrypt_block_block {m : GlobalMem} {r : Nat} (hk : ScheduleOk m r)
    {st : List Nat} (h : IsBlock st) : IsBlock (aes128_encrypt_block st m r) := by
  unfold aes128_encrypt_block
  have h0 := add_round_key_block m r h (by simpa using @ScheduleOk.round m r hk 0 (by decide))
  have h1 := rounds_block hk _ (fun x hx => mem_rounds hx) h0
  exact add_round_key_block _ _ (shift_rows_block (sub_bytes_block h1.1))
    (by simpa using @ScheduleOk.round m r hk 10 (by decide))

/-- Under any schedule of bytes the block cipher is injective on blocks. -/
theorem aes128_encrypt_block_inj {m : GlobalMem} {r : Nat} (hk : ScheduleOk m r)
    {s t : List Nat} (hs : IsBlock s) (ht : IsBlock t)
    (h : aes128_encrypt_block s m r = aes128_encrypt_block t m r) : s = t := by
  unfold aes128_encrypt_block at h
  have hk0 : ∀ i < 16, m.load (r + i) < 256 := by
    simpa using @ScheduleOk.round m r hk 0 (by decide)
  have s0 := add_round_key_block m r hs hk0
  have t0 := add_round_key_block m r ht hk0
  have s1 := rounds_block hk _ (fun x hx => mem_rounds hx) s0
  have t1 := rounds_block hk _ (fun x hx => mem_rounds hx) t0
  have e1 := add_round_key_inj _ _ (shift_rows_block (sub_bytes_block s1.1)).1
    (shift_rows_block (sub_bytes_block t1.1)).1 h
  have e2 := shift_rows_inj (sub_bytes_block s1.1).1 (sub_bytes_block t1.1).1 e1
  have e3 := sub_bytes_inj s1 t1 e2
  have e4 := rounds_inj hk _ (fun x hx => mem_rounds hx) s0 t0 e3
  exact add_round_key_inj _ _ hs.1 ht.1 e4

/-! ## Loads and stores -/

theorem load_store (m : GlobalMem) (a v b : Nat) :
    (m.store a v).load b = if b = a then v else m.load b := rfl

theorem events_store (m : GlobalMem) (a v : Nat) :
    (m.store a v).events = Event.store a :: m.events := rfl

/-- A loop that stores `f i` at `base + i` for `i < n`. -/
theorem store_range_load (f : Nat → Nat) (base n : Nat) (m : GlobalMem) (a : Nat) :
    ((List.range n).foldl (fun m i => m.store (base + i) (f i)) m).load a =
      if base ≤ a ∧ a < base + n then f (a - base) else m.load a := by
  induction n with
  | zero =>
    have : ¬ (base ≤ a ∧ a < base) := by omega
    simp [this]
  | succ n ih =>
    rw [List.range_succ, List.foldl_append]
    simp only [List.foldl_cons, List.foldl_nil, load_store, ih]
    by_cases h1 : a = base + n
    · subst h1
      simp
    · by_cases h2 : base ≤ a ∧ a < base + n
      · have h3 : base ≤ a ∧ a < base + (n + 1) := by omega
        simp [h1, h2, h3]
      · have h3 : ¬ (base ≤ a ∧ a < base + (n + 1)) := by omega
        simp [h1, h2, h3]

theorem store_range_events (f : Nat → Nat) (base n : Nat) (m : GlobalMem) :
    ((List.range n).foldl (fun m i => m.store (base + i) (f i)) m).events =
      ((List.range n).map (fun i => Event.store (base + i))).reverse ++ m.events := by
  induction n with
  | zero => rfl
  | succ n ih =>
    rw [List.range_succ, List.foldl_append]
    simp only [List.foldl_cons, List.foldl_nil, events_store, ih]
    simp

/-! ## The key schedule -/

theorem key_expansion_temp_eq (r : Nat) (s : KeyExpState) :
    key_expansion_temp r s =
      if s.i % 16 = 0 then
        ([(sbox.getD (s.mem.load (r + (s.i - 4 + 1))) 0 ^^^ s.rcon) % 256,
          sbox.getD (s.mem.load (r + (s.i - 4 + 2))) 0,
          sbox.getD (s.mem.load (r + (s.i - 4 + 3))) 0,
          sbox.getD (s.mem.load (r + (s.i - 4 + 0))) 0], gmul (s.rcon % 256) 2)
      else
        ([s.mem.load (r + (s.i - 4 + 0)), s.mem.load (r + (s.i - 4 + 1)),
          s.mem.load (r + (s.i - 4 + 2)), s.mem.load (r + (s.i - 4 + 3))], s.rcon) := by
  unfold key_expansion_temp
  split <;> rfl

theorem key_expansion_body_i (r : Nat) (s : KeyExpState) :
    (key_expansion_body r s).i = s.i + 4 := rfl

theorem key_expansion_body_rcon (r : Nat) (s : KeyExpState) :
    (key_expansion_body r s).rcon = (key_expansion_temp r s).2 := rfl

theorem key_expansion_body_events (r : Nat) (s : KeyExpState) :
    (key_expansion_body r s).mem.events =
      Event.store (r + (s.i + 3)) :: Event.store (r + (s.i + 2)) ::
        Event.store (r + (s.i + 1)) :: Event.store (r + s.i) :: s.mem.events := rfl

/-- The four bytes that one pass of the loop stores, read off the memory before it. -/
theorem key_expansion_body_load (r : Nat) (s : KeyExpState) (h : 16 ≤ s.i) (a : Nat) :
    (key_expansion_body r s).mem.load a =
      if r + s.i ≤ a ∧ a < r + s.i + 4 then
        s.mem.load (a - 16) ^^^ (key_expansion_temp r s).1.getD (a - (r + s.i)) 0
      else s.mem.load a := by
  simp only [key_expansion_body, range4, List.foldl, load_store]
  generalize (key_expansion_temp r s).1 = tw
  have n1 : ¬ r + (s.i + 1 + 1 + 1 - 16) = r + (s.i + 1 + 1) := by omega
  have n2 : ¬ r + (s.i + 1 + 1 - 16) = r + (s.i + 1) := by omega
  have n3 : ¬ r + (s.i + 1 - 16) = r + s.i := by omega
  have n4 : ¬ r + (s.i + 1 + 1 + 1 - 16) = r + (s.i + 1) := by omega
  have n5 : ¬ r + (s.i + 1 + 1 + 1 - 16) = r + s.i := by omega
  have n6 : ¬ r + (s.i + 1 + 1 - 16) = r + s.i := by omega
  simp only [n1, n2, n3, n4, n5, n6, if_false]
  by_cases c3 : a = r + (s.i + 1 + 1 + 1)
  · have hc : r + s.i ≤ a ∧ a < r + s.i + 4 := by omega
    have e1 : a - 16 = r + (s.i + 1 + 1 + 1 - 16) := by omega
    have e2 : a - (r + s.i) = 3 := by omega
    rw [if_pos c3, if_pos hc, e1, e2]
  · rw [if_neg c3]
    by_cases c2 : a = r + (s.i + 1 + 1)
    · have hc : r + s.i ≤ a ∧ a < r + s.i + 4 := by omega
      have e1 : a - 16 = r + (s.i + 1 + 1 - 16) := by omega
      have e2 : a - (r + s.i) = 2 := by omega
      rw [if_pos c2, if_pos hc, e1, e2]
    · rw [if_neg c2]
      by_cases c1 : a = r + (s.i + 1)
      · have hc : r + s.i ≤ a ∧ a < r + s.i + 4 := by omega
        have e1 : a - 16 = r + (s.i + 1 - 16) := by omega
        have e2 : a - (r + s.i) = 1 := by omega
        rw [if_pos c1, if_pos hc, e1, e2]
      · rw [if_neg c1]
        by_cases c0 : a = r + s.i
        · have hc : r + s.i ≤ a ∧ a < r + s.i + 4 := by omega
          have e1 : a - 16 = r + (s.i - 16) := by omega
          have e2 : a - (r + s.i) = 0 := by omega
          rw [if_pos c0, if_pos hc, e1, e2]
        · have hc : ¬ (r + s.i ≤ a ∧ a < r + s.i + 4) := by omega
          rw [if_neg c0, if_neg hc]

/-- The bytes `temp` depend on the schedule written so far and on nothing else. -/
theorem key_expansion_temp_congr (r q : Nat) (s t : KeyExpState) (hi : s.i = t.i)
    (hr : s.rcon = t.rcon) (h4 : 4 ≤ s.i)
    (h : ∀ j < s.i, s.mem.load (r + j) = t.mem.load (q + j)) :
    key_expansion_temp r s = key_expansion_temp q t := by
  rw [key_expansion_temp_eq, key_expansion_temp_eq, ← hi, ← hr,
    ← h (s.i - 4 + 0) (by omega), ← h (s.i - 4 + 1) (by omega), ← h (s.i - 4 + 2) (by omega),
    ← h (s.i - 4 + 3) (by omega)]

/-- An invariant of the loop body is an invariant of the loop. -/
theorem key_expansion_loop_induct (r : Nat) (P : KeyExpState → Prop)
    (hstep : ∀ s, P s → s.i < 176 → P (key_expansion_body r s)) (fuel : Nat)
    (s : KeyExpState) (h : P s) : P (key_expansion_loop r fuel s) := by
  induction fuel generalizing s with
  | zero => exact h
  | succ n ih =>
    unfold key_expansion_loop
    split
    · exact ih _ (hstep s h (by assumption))
    · exact h

/-- A relation between two runs of the loop that the body keeps is kept by the loop. -/
theorem key_expansion_loop_induct2 (r q : Nat) (R : KeyExpState → KeyExpState → Prop)
    (hi : ∀ s t, R s t → s.i = t.i)
    (hstep : ∀ s t, R s t → s.i < 176 → R (key_expansion_body r s) (key_expansion_body q t))
    (fuel : Nat) (s t : KeyExpState) (h : R s t) :
    R (key_expansion_loop r fuel s) (key_expansion_loop q fuel t) := by
  induction fuel generalizing s t with
  | zero => exact h
  | succ n ih =>
    unfold key_expansion_loop
    rw [← hi s t h]
    split
    · exact ih _ _ (hstep s t h (by assumption))
    · exact h

/-- The loop leaves with `i = 176` when the fuel covers the passes that are left. -/
theorem key_expansion_loop_exit (r fuel : Nat) (s : KeyExpState) (h4 : s.i % 4 = 0)
    (hle : s.i ≤ 176) (hf : 176 ≤ s.i + 4 * fuel) : (key_expansion_loop r fuel s).i = 176 := by
  induction fuel generalizing s with
  | zero => simp only [key_expansion_loop]; omega
  | succ n ih =>
    unfold key_expansion_loop
    split
    · apply ih
      · rw [key_expansion_body_i]; omega
      · rw [key_expansion_body_i]; omega
      · rw [key_expansion_body_i]; omega
    · omega

theorem key_expansion_temp_lt (r : Nat) (s : KeyExpState) (h4 : 4 ≤ s.i)
    (h : ∀ j < s.i, s.mem.load (r + j) < 256) (k : Nat) :
    (key_expansion_temp r s).1.getD k 0 < 256 := by
  apply IsBytes.getD
  rw [key_expansion_temp_eq]
  split
  · intro x hx
    simp only [List.mem_cons, List.mem_singleton, List.not_mem_nil, or_false] at hx
    rcases hx with rfl | rfl | rfl | rfl
    · exact Nat.mod_lt _ (by decide)
    · exact sbox_lt _
    · exact sbox_lt _
    · exact sbox_lt _
  · intro x hx
    simp only [List.mem_cons, List.mem_singleton, List.not_mem_nil, or_false] at hx
    rcases hx with rfl | rfl | rfl | rfl <;> exact h _ (by omega)

theorem key_expansion_init_load (key : List Nat) (m : GlobalMem) (r a : Nat) :
    (key_expansion_init key m r).mem.load a =
      if r ≤ a ∧ a < r + 16 then key.getD (a - r) 0 else m.load a :=
  store_range_load _ _ _ _ _

theorem key_expansion_eq (key : List Nat) (m : GlobalMem) (r : Nat) :
    key_expansion key m r = (key_expansion_loop r 176 (key_expansion_init key
      { m with events := Event.call_key_expansion :: m.events } r)).mem := rfl

theorem key_expansion_init_inv (key : List Nat) (m : GlobalMem) (r : Nat) :
    16 ≤ (key_expansion_init key m r).i ∧ (key_expansion_init key m r).i % 4 = 0 ∧
      (key_expansion_init key m r).i ≤ 176 :=
  ⟨Nat.le_refl 16, (by decide : 16 % 4 = 0), (by decide : 16 ≤ 176)⟩

/-- The schedule does not depend on the buffer it is written into, nor on where. -/
theorem key_expansion_region (key : List Nat) (m n : GlobalMem) (r q : Nat) :
    ∀ j < 176, (key_expansion key m r).load (r + j) = (key_expansion key n q).load (q + j) := by
  rw [key_expansion_eq key m r, key_expansion_eq key n q]
  generalize hs : key_expansion_init key
    { m with events := Event.call_key_expansion :: m.events } r = s
  generalize ht : key_expansion_init key
    { n with events := Event.call_key_expansion :: n.events } q = t
  have hR : s.i = t.i ∧ s.rcon = t.rcon ∧ 16 ≤ s.i ∧ s.i % 4 = 0 ∧ s.i ≤ 176 ∧
      ∀ j < s.i, s.mem.load (r + j) = t.mem.load (q + j) := by
    subst hs ht
    refine ⟨rfl, rfl, (key_expansion_init_inv _ _ _).1, (key_expansion_init_inv _ _ _).2.1,
      (key_expansion_init_inv _ _ _).2.2, ?_⟩
    intro j hj
    have hj16 : j < 16 := hj
    rw [key_expansion_init_load, key_expansion_init_load, if_pos (by omega),
      if_pos (by omega)]
    simp
  have hloop := key_expansion_loop_induct2 r q
    (fun s t => s.i = t.i ∧ s.rcon = t.rcon ∧ 16 ≤ s.i ∧ s.i % 4 = 0 ∧ s.i ≤ 176 ∧
      ∀ j < s.i, s.mem.load (r + j) = t.mem.load (q + j))
    (fun s t h => h.1)
    (by
      intro s t ⟨hi, hr, h16, h4, hle, hl⟩ hlt
      have htemp := key_expansion_temp_congr r q s t hi hr (by omega) hl
      refine ⟨by simp only [key_expansion_body_i, hi], ?_, ?_, ?_, ?_, ?_⟩
      · simp only [key_expansion_body_rcon, htemp]
      · rw [key_expansion_body_i]; omega
      · rw [key_expansion_body_i]; omega
      · rw [key_expansion_body_i]; omega
      · intro j hj
        rw [key_expansion_body_i] at hj
        rw [key_expansion_body_load r s h16, key_expansion_body_load q t (hi ▸ h16), ← hi,
          htemp]
        by_cases c : s.i ≤ j
        · rw [if_pos (by omega), if_pos (by omega)]
          have e1 : r + j - 16 = r + (j - 16) := by omega
          have e2 : q + j - 16 = q + (j - 16) := by omega
          have e3 : r + j - (r + s.i) = j - s.i := by omega
          have e4 : q + j - (q + s.i) = j - s.i := by omega
          rw [e1, e2, e3, e4, hl (j - 16) (by omega)]
        · rw [if_neg (by omega), if_neg (by omega)]
          exact hl j (by omega))
    176 s t hR
  have hexit := key_expansion_loop_exit r 176 s hR.2.2.2.1 hR.2.2.2.2.1 (by omega)
  obtain ⟨_, _, _, _, _, hl⟩ := hloop
  intro j hj
  have hj2 : j < (key_expansion_loop r 176 s).i := by omega
  exact hl j hj2

/-- What `key_expansion` leaves in the buffer: the schedule of the key in the 176 bytes
at `r`, whatever was there, and every other byte as it was. -/
theorem key_expansion_load (key : List Nat) (m : GlobalMem) (r a : Nat) :
    (key_expansion key m r).load a =
      if r ≤ a ∧ a < r + 176 then (key_schedule key).load (a - r) else m.load a := by
  by_cases c : r ≤ a ∧ a < r + 176
  · rw [if_pos c]
    have := key_expansion_region key m (GlobalMem.ofList (List.replicate 176 0)) r 0 (a - r)
      (by omega)
    rw [show r + (a - r) = a by omega, Nat.zero_add] at this
    rw [this]
    rfl
  · rw [if_neg c, key_expansion_eq]
    have := key_expansion_loop_induct r
      (fun s => 16 ≤ s.i ∧ s.i % 4 = 0 ∧ s.i ≤ 176 ∧ s.mem.load a = m.load a)
      (by
        intro s ⟨h16, h4, hle, hl⟩ hlt
        refine ⟨?_, ?_, ?_, ?_⟩
        · rw [key_expansion_body_i]; omega
        · rw [key_expansion_body_i]; omega
        · rw [key_expansion_body_i]; omega
        · rw [key_expansion_body_load r s h16, if_neg (by omega)]
          exact hl)
      176 (key_expansion_init key { m with events := Event.call_key_expansion :: m.events } r)
      ⟨(key_expansion_init_inv _ _ _).1, (key_expansion_init_inv _ _ _).2.1,
        (key_expansion_init_inv _ _ _).2.2, by
        rw [key_expansion_init_load, if_neg (by omega)]⟩
    exact this.2.2.2

/-- The record of one call of `key_expansion`: the call, then one store to each of the
176 addresses of the schedule, in increasing order. -/
theorem key_expansion_events (key : List Nat) (m : GlobalMem) (r : Nat) :
    (key_expansion key m r).events =
      ((List.range 176).map (fun j => Event.store (r + j))).reverse ++
        Event.call_key_expansion :: m.events := by
  rw [key_expansion_eq]
  generalize hs : key_expansion_init key
    { m with events := Event.call_key_expansion :: m.events } r = s
  have h0 : s.i % 4 = 0 ∧ s.i ≤ 176 ∧ s.mem.events =
      ((List.range s.i).map (fun j => Event.store (r + j))).reverse ++
        Event.call_key_expansion :: m.events := by
    subst hs
    exact ⟨(key_expansion_init_inv _ _ _).2.1, (key_expansion_init_inv _ _ _).2.2,
      store_range_events _ _ _ _⟩
  have := key_expansion_loop_induct r
    (fun s => s.i % 4 = 0 ∧ s.i ≤ 176 ∧ s.mem.events =
      ((List.range s.i).map (fun j => Event.store (r + j))).reverse ++
        Event.call_key_expansion :: m.events)
    (by
      intro s ⟨h4, hle, he⟩ hlt
      refine ⟨?_, ?_, ?_⟩
      · rw [key_expansion_body_i]; omega
      · rw [key_expansion_body_i]; omega
      · rw [key_expansion_body_events, key_expansion_body_i, he]
        simp [List.range_succ])
    176 s h0
  have hexit := key_expansion_loop_exit r 176 s h0.1 h0.2.1 (by omega)
  rw [this.2.2, hexit]

/-- A key of bytes gives a schedule of bytes. -/
theorem key_expansion_scheduleOk (key : List Nat) (hk : IsBytes key) (m : GlobalMem) (r : Nat) :
    ScheduleOk (key_expansion key m r) r := by
  rw [key_expansion_eq]
  generalize hs : key_expansion_init key
    { m with events := Event.call_key_expansion :: m.events } r = s
  have h0 : 16 ≤ s.i ∧ s.i % 4 = 0 ∧ s.i ≤ 176 ∧ ∀ j < s.i, s.mem.load (r + j) < 256 := by
    subst hs
    refine ⟨(key_expansion_init_inv _ _ _).1, (key_expansion_init_inv _ _ _).2.1,
      (key_expansion_init_inv _ _ _).2.2, ?_⟩
    intro j hj
    have hj16 : j < 16 := hj
    rw [key_expansion_init_load, if_pos (by omega)]
    exact hk.getD _
  have := key_expansion_loop_induct r
    (fun s => 16 ≤ s.i ∧ s.i % 4 = 0 ∧ s.i ≤ 176 ∧ ∀ j < s.i, s.mem.load (r + j) < 256)
    (by
      intro s ⟨h16, h4, hle, hl⟩ hlt
      refine ⟨?_, ?_, ?_, ?_⟩
      · rw [key_expansion_body_i]; omega
      · rw [key_expansion_body_i]; omega
      · rw [key_expansion_body_i]; omega
      · intro j hj
        rw [key_expansion_body_i] at hj
        rw [key_expansion_body_load r s h16]
        by_cases c : s.i ≤ j
        · rw [if_pos (by omega)]
          apply xor_lt_256
          · rw [show r + j - 16 = r + (j - 16) by omega]
            exact hl _ (by omega)
          · exact key_expansion_temp_lt r s (by omega) hl _
        · rw [if_neg (by omega)]
          exact hl j (by omega))
    176 s h0
  have hexit := key_expansion_loop_exit r 176 s h0.2.1 h0.2.2.1 (by omega)
  intro j hj
  exact this.2.2.2 j (by omega)

/-! ## One work item -/

theorem foldl_length {β : Type} (f : List Nat → β → List Nat) (l : List β) (s : List Nat)
    (h : ∀ s x, (f s x).length = s.length) : (l.foldl f s).length = s.length := by
  induction l generalizing s with
  | nil => rfl
  | cons x xs ih => simp only [List.foldl_cons]; rw [ih, h]

theorem readback_length (f : Nat → Nat) (n : Nat) (out : List Nat) :
    ((List.range n).foldl (fun o i => o.set i (f i)) out).length = out.length :=
  foldl_length _ _ _ (fun _ _ => List.length_set _ _ _)

theorem readback_getD (f : Nat → Nat) (n : Nat) (out : List Nat) (a : Nat) :
    ((List.range n).foldl (fun o i => o.set i (f i)) out).getD a 0 =
      if a < n ∧ a < out.length then f a else out.getD a 0 := by
  induction n with
  | zero => simp
  | succ n ih =>
    rw [List.range_succ, List.foldl_append]
    simp only [List.foldl_cons, List.foldl_nil]
    rw [List.getD_eq_getElem?_getD, List.getElem?_set, readback_length]
    by_cases h1 : n = a
    · subst h1
      by_cases h2 : n < out.length
      · simp [h2]
      · have h3 : out.length ≤ n := by omega
        simp [h2, List.getElem?_eq_none h3]
    · rw [if_neg h1, ← List.getD_eq_getElem?_getD, ih]
      by_cases h2 : a < n ∧ a < out.length
      · rw [if_pos h2, if_pos (by omega)]
      · rw [if_neg h2, if_neg (by omega)]

theorem ext16 {l k : List Nat} (hl : l.length = 16) (hk : k.length = 16)
    (e : ∀ i < 16, l.getD i 0 = k.getD i 0) : l = k := by
  calc l = [l.getD 0 0, l.getD 1 0, l.getD 2 0, l.getD 3 0, l.getD 4 0, l.getD 5 0,
        l.getD 6 0, l.getD 7 0, l.getD 8 0, l.getD 9 0, l.getD 10 0, l.getD 11 0,
        l.getD 12 0, l.getD 13 0, l.getD 14 0, l.getD 15 0] := list16_eq hl
    _ = [k.getD 0 0, k.getD 1 0, k.getD 2 0, k.getD 3 0, k.getD 4 0, k.getD 5 0,
        k.getD 6 0, k.getD 7 0, k.getD 8 0, k.getD 9 0, k.getD 10 0, k.getD 11 0,
        k.getD 12 0, k.getD 13 0, k.getD 14 0, k.getD 15 0] := by
      rw [e 0 (by decide), e 1 (by decide), e 2 (by decide), e 3 (by decide),
        e 4 (by decide), e 5 (by decide), e 6 (by decide), e 7 (by decide),
        e 8 (by decide), e 9 (by decide), e 10 (by decide), e 11 (by decide),
        e 12 (by decide), e 13 (by decide), e 14 (by decide), e 15 (by decide)]
    _ = k := (list16_eq hk).symm

theorem map_range16_getD (f : Nat → Nat) (i : Nat) (hi : i < 16) :
    ((List.range 16).map f).getD i 0 = f i := by
  rw [List.getD_eq_getElem?_getD, List.getElem?_map, List.getElem?_range hi]
  rfl

theorem set_fold_eq (f : Nat → Nat) (b : List Nat) (hb : b.length = 16) :
    (List.range 16).foldl (fun b i => b.set i (f i)) b = (List.range 16).map f := by
  apply ext16
  · rw [readback_length, hb]
  · simp
  · intro i hi
    rw [readback_getD, if_pos ⟨hi, hb ▸ hi⟩, map_range16_getD f i hi]

theorem load_block_eq (inp : List Nat) (idx : Nat) :
    (List.range 16).foldl (fun b i => b.set i (inp.getD (idx * 16 + i) 0))
      (List.replicate 16 0) = block_at inp idx :=
  set_fold_eq _ _ (List.length_replicate 16 0)

theorem xor_fold_eq (f : Nat → Nat) (b : List Nat) (hb : b.length = 16) :
    (List.range 16).foldl (fun b i => b.modify (fun x => x ^^^ f i) i) b =
      xor_block b ((List.range 16).map f) := by
  obtain ⟨a0, a1, a2, a3, a4, a5, a6, a7, a8, a9, a10, a11, a12, a13, a14, a15, rfl⟩ :=
    list16_exists hb
  rfl

theorem block_at_length (l : List Nat) (i : Nat) : (block_at l i).length = 16 := by
  simp [block_at]

theorem GlobalMem.block_length (m : GlobalMem) (i : Nat) : (m.block i).length = 16 := by
  simp [GlobalMem.block]

/-- The block that work item `idx` encrypts and the schedule it encrypts it under. -/
theorem work_item_block (inp : List Nat) (m : GlobalMem) (n : Nat) (key iv : List Nat)
    (idx : Nat) (h : idx < n) :
    aes128_encrypt_block
      (if idx = 0 then
        (List.range 16).foldl (fun b i => b.modify (fun x => x ^^^ iv.getD i 0) i)
          ((List.range 16).foldl (fun b i => b.set i (inp.getD (idx * 16 + i) 0))
            (List.replicate 16 0))
      else
        (List.range 16).foldl
          (fun b i => b.modify
            (fun x => x ^^^ (key_expansion key m (n * 16)).load ((idx - 1) * 16 + i)) i)
          ((List.range 16).foldl (fun b i => b.set i (inp.getD (idx * 16 + i) 0))
            (List.replicate 16 0)))
      (key_expansion key m (n * 16)) (n * 16) =
    encrypt_with_key key (xor_block (block_at inp idx) (chain_block m iv idx)) := by
  have hs : ∀ st, aes128_encrypt_block st (key_expansion key m (n * 16)) (n * 16) =
      encrypt_with_key key st := fun st =>
    aes128_encrypt_block_congr st _ _ _ _ (key_expansion_region key m _ (n * 16) 0)
  rw [hs, load_block_eq]
  apply congrArg
  unfold chain_block
  split
  · exact xor_fold_eq _ _ (block_at_length _ _)
  · rw [xor_fold_eq _ _ (block_at_length _ _)]
    apply congrArg
    unfold GlobalMem.block
    apply List.map_congr_left
    intro i hi
    have := List.mem_range.1 hi
    rw [key_expansion_load, if_neg (by omega)]

theorem aes_cbc_encrypt_eq (inp : List Nat) (m : GlobalMem) (n : Nat) (key iv : List Nat)
    (idx : Nat) (h : idx < n) :
    aes_cbc_encrypt inp m n key iv idx =
      (List.range 16).foldl
        (fun o i => o.store (idx * 16 + i)
          ((encrypt_with_key key (xor_block (block_at inp idx) (chain_block m iv idx))).getD i 0))
        (key_expansion key m (n * 16)) := by
  rw [← work_item_block inp m n key iv idx h]
  unfold aes_cbc_encrypt
  rw [if_pos h]

/-- What work item `idx` leaves in the buffer: the ciphertext of its block in the
sixteen bytes at `16*idx`, the schedule in the 176 bytes at `16*n`, the rest as it was. -/
theorem aes_cbc_encrypt_load (inp : List Nat) (m : GlobalMem) (n : Nat) (key iv : List Nat)
    (idx : Nat) (h : idx < n) (a : Nat) :
    (aes_cbc_encrypt inp m n key iv idx).load a =
      if idx * 16 ≤ a ∧ a < idx * 16 + 16 then
        (encrypt_with_key key (xor_block (block_at inp idx) (chain_block m iv idx))).getD
          (a - idx * 16) 0
      else if n * 16 ≤ a ∧ a < n * 16 + 176 then (key_schedule key).load (a - n * 16)
      else m.load a := by
  rw [aes_cbc_encrypt_eq inp m n key iv idx h, store_range_load, key_expansion_load]

theorem aes_cbc_encrypt_idle (inp : List Nat) (m : GlobalMem) (n : Nat) (key iv : List Nat)
    (idx : Nat) (h : ¬ idx < n) : aes_cbc_encrypt inp m n key iv idx = m := by
  unfold aes_cbc_encrypt
  rw [if_neg h]

/-! ## Lengths -/

theorem sub_bytes_length (st : List Nat) : (sub_bytes st).length = st.length :=
  foldl_length _ _ _ (fun _ _ => List.length_modify _ _ _)

theorem shift_rows_length (st : List Nat) : (shift_rows st).length = st.length := by
  simp [shift_rows]

theorem mix_columns_length (st : List Nat) : (mix_columns st).length = st.length :=
  foldl_length _ _ _ (fun _ _ => by simp [mix_column])

theorem add_round_key_length (st : List Nat) (m : GlobalMem) (r : Nat) :
    (add_round_key st m r).length = st.length :=
  foldl_length _ _ _ (fun _ _ => List.length_modify _ _ _)

theorem aes128_encrypt_block_length (st : List Nat) (m : GlobalMem) (r : Nat) :
    (aes128_encrypt_block st m r).length = st.length := by
  unfold aes128_encrypt_block
  simp only [add_round_key_length, shift_rows_length, sub_bytes_length]
  rw [foldl_length _ _ _ (fun s x => by
    simp [aes_round, add_round_key_length, mix_columns_length, shift_rows_length,
      sub_bytes_length]), add_round_key_length]

theorem xor_block_length (a b : List Nat) (ha : a.length = 16) (hb : b.length = 16) :
    (xor_block a b).length = 16 := by
  simp [xor_block, ha, hb]

theorem chain_block_length (m : GlobalMem) (iv : List Nat) (idx : Nat) :
    (chain_block m iv idx).length = 16 := by
  unfold chain_block
  split
  · simp
  · exact m.block_length _

theorem encrypt_with_key_length (key st : List Nat) :
    (encrypt_with_key key st).length = st.length :=
  aes128_encrypt_block_length _ _ _

theorem map_getD_range16 {l : List Nat} (h : l.length = 16) :
    (List.range 16).map (fun i => l.getD i 0) = l :=
  (list16_eq h).symm

/-! ## The blocks of the buffer after a work item -/

theorem aes_cbc_encrypt_block_self (inp : List Nat) (m : GlobalMem) (n : Nat)
    (key iv : List Nat) (idx : Nat) (h : idx < n) :
    (aes_cbc_encrypt inp m n key iv idx).block idx =
      encrypt_with_key key (xor_block (block_at inp idx) (chain_block m iv idx)) := by
  have hl : (encrypt_with_key key (xor_block (block_at inp idx) (chain_block m iv idx))).length
      = 16 := by
    rw [encrypt_with_key_length,
      xor_block_length _ _ (block_at_length _ _) (chain_block_length _ _ _)]
  rw [← map_getD_range16 hl]
  unfold GlobalMem.block
  apply List.map_congr_left
  intro j hj
  have := List.mem_range.1 hj
  rw [aes_cbc_encrypt_load inp m n key iv idx h, if_pos (by omega),
    show idx * 16 + j - idx * 16 = j by omega]

theorem aes_cbc_encrypt_block_other (inp : List Nat) (m : GlobalMem) (n : Nat)
    (key iv : List Nat) (idx j : Nat) (hj : j < n) (hne : j ≠ idx) :
    (aes_cbc_encrypt inp m n key iv idx).block j = m.block j := by
  by_cases h : idx < n
  · unfold GlobalMem.block
    apply List.map_congr_left
    intro t ht
    have := List.mem_range.1 ht
    rw [aes_cbc_encrypt_load inp m n key iv idx h, if_neg (by omega), if_neg (by omega)]
  · rw [aes_cbc_encrypt_idle inp m n key iv idx h]

/-! ## The work items in increasing order -/

theorem run_work_items_succ (inp : List Nat) (m : GlobalMem) (n : Nat) (key iv : List Nat)
    (k : Nat) :
    run_work_items inp m n key iv (List.range (k + 1)) =
      aes_cbc_encrypt inp (run_work_items inp m n key iv (List.range k)) n key iv k := by
  simp [run_work_items, List.range_succ, List.foldl_append]

theorem chain_block_congr (m p : GlobalMem) (iv : List Nat) (i : Nat)
    (h : 0 < i → m.block (i - 1) = p.block (i - 1)) :
    chain_block m iv i = chain_block p iv i := by
  unfold chain_block
  split
  · rfl
  · exact h (by omega)

/-- After the work items `0 .. k-1`, in this order, the first `k` blocks of the buffer
satisfy the CBC recurrence. -/
theorem run_in_order_block (inp : List Nat) (m : GlobalMem) (n : Nat) (key iv : List Nat)
    (k : Nat) (hk : k ≤ n) :
    ∀ i < k, (run_work_items inp m n key iv (List.range k)).block i =
      encrypt_with_key key (xor_block (block_at inp i)
        (chain_block (run_work_items inp m n key iv (List.range k)) iv i)) := by
  induction k with
  | zero => intro i hi; omega
  | succ k ih =>
    intro i hi
    rw [run_work_items_succ]
    have ih := ih (by omega)
    by_cases c : i = k
    · subst c
      rw [aes_cbc_encrypt_block_self _ _ _ _ _ _ (by omega)]
      congr 2
      apply chain_block_congr
      intro h0
      rw [aes_cbc_encrypt_block_other _ _ _ _ _ _ _ (by omega) (by omega)]
    · rw [aes_cbc_encrypt_block_other _ _ _ _ _ _ _ (by omega) c, ih i (by omega)]
      congr 2
      apply chain_block_congr
      intro h0
      rw [aes_cbc_encrypt_block_other _ _ _ _ _ _ _ (by omega) (by omega)]

/-! ## The host function -/

theorem aes_encrypt_cbc_length (inp out : List Nat) (length : Nat) (key iv dev order : List Nat) :
    (aes_encrypt_cbc inp out length key iv dev order).length = out.length :=
  readback_length _ _ _

/-- The bytes that the host reads back are those of the device buffer. -/
theorem aes_encrypt_cbc_getD (inp out : List Nat) (length : Nat) (key iv dev order : List Nat)
    (a : Nat) :
    (aes_encrypt_cbc inp out length key iv dev order).getD a 0 =
      if a < length ∧ a < out.length then (device_run inp length key iv dev order).load a
      else out.getD a 0 :=
  readback_getD _ _ _ _

theorem aes_encrypt_cbc_block (inp out : List Nat) (length : Nat) (key iv dev order : List Nat)
    (i : Nat) (h1 : i * 16 + 16 ≤ length) (h2 : length ≤ out.length) :
    block_at (aes_encrypt_cbc inp out length key iv dev order) i =
      (device_run inp length key iv dev order).block i := by
  unfold block_at GlobalMem.block
  apply List.map_congr_left
  intro j hj
  have := List.mem_range.1 hj
  rw [aes_encrypt_cbc_getD, if_pos (by omega)]

theorem device_run_eq (inp key iv dev order : List Nat) (hkey : key.length = 16)
    (hiv : iv.length = 16) :
    device_run inp inp.length key iv dev order =
      run_work_items inp (GlobalMem.ofList dev) (inp.length / 16) key iv order := by
  unfold device_run
  rw [List.take_length, List.take_of_length_le (Nat.le_of_eq hkey),
    List.take_of_length_le (Nat.le_of_eq hiv)]

theorem chain_block_zero (m : GlobalMem) (iv : List Nat) (hiv : iv.length = 16) :
    chain_block m iv 0 = iv := by
  unfold chain_block
  rw [if_pos rfl, map_getD_range16 hiv]

theorem chain_block_pos (m : GlobalMem) (iv : List Nat) (i : Nat) (h : i ≠ 0) :
    chain_block m iv i = m.block (i - 1) := by
  unfold chain_block
  rw [if_neg h]

/-- The CBC recurrence on the caller's buffer, for the work items in increasing order:
it holds for the complete blocks of the input, whatever its length. -/
theorem aes_encrypt_cbc_in_order (key iv inp out dev : List Nat)
    (hkey : key.length = 16) (hiv : iv.length = 16) (hout : inp.length ≤ out.length) :
    ∀ i < inp.length / 16,
      block_at (aes_encrypt_cbc inp out inp.length key iv dev
        (List.range (inp.length / 16))) i =
      encrypt_with_key key (xor_block (block_at inp i)
        (if i = 0 then iv
         else block_at (aes_encrypt_cbc inp out inp.length key iv dev
           (List.range (inp.length / 16))) (i - 1))) := by
  intro i hi
  have h16 : i * 16 + 16 ≤ inp.length := by omega
  rw [aes_encrypt_cbc_block _ _ _ _ _ _ _ _ h16 hout,
    device_run_eq inp key iv dev _ hkey hiv,
    run_in_order_block inp _ _ key iv _ (Nat.le_refl _) i hi]
  congr 2
  by_cases c : i = 0
  · subst c
    rw [if_pos rfl, chain_block_zero _ _ hiv]
  · rw [if_neg c, chain_block_pos _ _ _ c,
      aes_encrypt_cbc_block _ _ _ _ _ _ _ _ (by omega) hout,
      device_run_eq inp key iv dev _ hkey hiv]

/-! ## Blocks of bytes along the chain -/

theorem block_at_isBlock {l : List Nat} (h : IsBytes l) (i : Nat) : IsBlock (block_at l i) := by
  refine ⟨block_at_length l i, ?_⟩
  intro x hx
  obtain ⟨j, _, rfl⟩ := List.mem_map.1 hx
  exact h.getD _

theorem xor_block_isBlock {a b : List Nat} (ha : IsBlock a) (hb : IsBlock b) :
    IsBlock (xor_block a b) := by
  obtain ⟨a0, a1, a2, a3, a4, a5, a6, a7, a8, a9, a10, a11, a12, a13, a14, a15, rfl⟩ :=
    list16_exists ha.1
  obtain ⟨b0, b1, b2, b3, b4, b5, b6, b7, b8, b9, b10, b11, b12, b13, b14, b15, rfl⟩ :=
    list16_exists hb.1
  have h1 := (isBytes16 ..).1 ha.2
  have h2 := (isBytes16 ..).1 hb.2
  refine ⟨rfl, ?_⟩
  show IsBytes [a0 ^^^ b0, a1 ^^^ b1, a2 ^^^ b2, a3 ^^^ b3, a4 ^^^ b4, a5 ^^^ b5, a6 ^^^ b6,
    a7 ^^^ b7, a8 ^^^ b8, a9 ^^^ b9, a10 ^^^ b10, a11 ^^^ b11, a12 ^^^ b12, a13 ^^^ b13,
    a14 ^^^ b14, a15 ^^^ b15]
  rw [isBytes16]
  obtain ⟨_, _, _, _, _, _, _, _, _, _, _, _, _, _, _, _⟩ := h1
  obtain ⟨_, _, _, _, _, _, _, _, _, _, _, _, _, _, _, _⟩ := h2
  refine ⟨?_, ?_, ?_, ?_, ?_, ?_, ?_, ?_, ?_, ?_, ?_, ?_, ?_, ?_, ?_, ?_⟩ <;>
    (apply xor_lt_256 <;> assumption)

theorem xor_block_left_inj {a b c : List Nat} (ha : a.length = 16) (hb : b.length = 16)
    (hc : c.length = 16) (h : xor_block a c = xor_block b c) : a = b := by
  obtain ⟨a0, a1, a2, a3, a4, a5, a6, a7, a8, a9, a10, a11, a12, a13, a14, a15, rfl⟩ :=
    list16_exists ha
  obtain ⟨b0, b1, b2, b3, b4, b5, b6, b7, b8, b9, b10, b11, b12, b13, b14, b15, rfl⟩ :=
    list16_exists hb
  obtain ⟨c0, c1, c2, c3, c4, c5, c6, c7, c8, c9, c10, c11, c12, c13, c14, c15, rfl⟩ :=
    list16_exists hc
  simp only [xor_block, List.zipWith_cons_cons, List.zipWith_nil_left, List.cons.injEq,
    and_true, Nat.xor_left_inj] at h
  obtain ⟨_, _, _, _, _, _, _, _, _, _, _, _, _, _, _, _⟩ := h
  subst_vars
  rfl

theorem xor_block_right_inj {a b c : List Nat} (ha : a.length = 16) (hb : b.length = 16)
    (hc : c.length = 16) (h : xor_block c a = xor_block c b) : a = b := by
  obtain ⟨a0, a1, a2, a3, a4, a5, a6, a7, a8, a9, a10, a11, a12, a13, a14, a15, rfl⟩ :=
    list16_exists ha
  obtain ⟨b0, b1, b2, b3, b4, b5, b6, b7, b8, b9, b10, b11, b12, b13, b14, b15, rfl⟩ :=
    list16_exists hb
  obtain ⟨c0, c1, c2, c3, c4, c5, c6, c7, c8, c9, c10, c11, c12, c13, c14, c15, rfl⟩ :=
    list16_exists hc
  simp only [xor_block, List.zipWith_cons_cons, List.zipWith_nil_left, List.cons.injEq,
    and_true, Nat.xor_right_inj] at h
  obtain ⟨_, _, _, _, _, _, _, _, _, _, _, _, _, _, _, _⟩ := h
  subst_vars
  rfl

theorem key_schedule_ok {key : List Nat} (hk : IsBytes key) : ScheduleOk (key_schedule key) 0 :=
  key_expansion_scheduleOk key hk _ 0

theorem encrypt_with_key_isBlock {key st : List Nat} (hk : IsBytes key) (h : IsBlock st) :
    IsBlock (encrypt_with_key key st) :=
  aes128_encrypt_block_block (key_schedule_ok hk) h

/-- Under the schedule of a key of bytes the block cipher is injective on blocks. -/
theorem encrypt_with_key_inj {key s t : List Nat} (hk : IsBytes key) (hs : IsBlock s)
    (ht : IsBlock t) (h : encrypt_with_key key s = encrypt_with_key key t) : s = t :=
  aes128_encrypt_block_inj (key_schedule_ok hk) hs ht h

theorem chain_block_isBlock_zero (m : GlobalMem) {iv : List Nat} (hiv : IsBytes iv) :
    IsBlock (chain_block m iv 0) := by
  unfold chain_block
  rw [if_pos rfl]
  exact block_at_isBlock hiv 0 |> fun h => by simpa [block_at] using h

/-- Every block that the in-order run has written is a block of bytes. -/
theorem run_in_order_isBlock (inp : List Nat) (m : GlobalMem) (n : Nat) (key iv : List Nat)
    (hk : IsBytes key) (hiv : IsBytes iv) (hinp : IsBytes inp) :
    ∀ i < n, IsBlock ((run_work_items inp m n key iv (List.range n)).block i) := by
  intro i
  induction i with
  | zero =>
    intro hi
    rw [run_in_order_block inp m n key iv n (Nat.le_refl n) 0 hi]
    exact encrypt_with_key_isBlock hk
      (xor_block_isBlock (block_at_isBlock hinp 0) (chain_block_isBlock_zero _ hiv))
  | succ i ih =>
    intro hi
    rw [run_in_order_block inp m n key iv n (Nat.le_refl n) (i + 1) hi]
    refine encrypt_with_key_isBlock hk (xor_block_isBlock (block_at_isBlock hinp _) ?_)
    rw [chain_block_pos _ _ _ (by omega)]
    exact ih (by omega)

/-! ## Two runs side by side -/

/-- Blocks before the first difference of the plaintexts: the two runs agree. -/
theorem run_in_order_prefix (inp inp2 : List Nat) (m m2 : GlobalMem) (n : Nat)
    (key iv : List Nat) (i : Nat) (hi : i ≤ n)
    (h : ∀ j < i, block_at inp j = block_at inp2 j) :
    ∀ j < i, (run_work_items inp m n key iv (List.range n)).block j =
      (run_work_items inp2 m2 n key iv (List.range n)).block j := by
  intro j
  induction j with
  | zero =>
    intro hj
    rw [run_in_order_block inp m n key iv n (Nat.le_refl n) 0 (by omega),
      run_in_order_block inp2 m2 n key iv n (Nat.le_refl n) 0 (by omega), h 0 hj,
      chain_block_congr _ (run_work_items inp2 m2 n key iv (List.range n)) iv 0
        (fun h0 => absurd h0 (Nat.lt_irrefl 0))]
  | succ j ih =>
    intro hj
    rw [run_in_order_block inp m n key iv n (Nat.le_refl n) (j + 1) (by omega),
      run_in_order_block inp2 m2 n key iv n (Nat.le_refl n) (j + 1) (by omega), h _ hj,
      chain_block_pos _ _ _ (by omega), chain_block_pos _ _ _ (by omega)]
    simp only [Nat.add_sub_cancel]
    rw [ih (by omega)]

/-- A difference in ciphertext block `j` is carried into block `j + 1` when the two
plaintexts have the same block `j + 1`. -/
theorem run_in_order_step (inp inp2 : List Nat) (m m2 : GlobalMem) (n : Nat)
    (key iv iv2 : List Nat) (hk : IsBytes key) (hiv : IsBytes iv) (hiv2 : IsBytes iv2)
    (hinp : IsBytes inp) (hinp2 : IsBytes inp2) (j : Nat) (hj : j + 1 < n)
    (hsame : block_at inp (j + 1) = block_at inp2 (j + 1))
    (hd : (run_work_items inp m n key iv (List.range n)).block j ≠
      (run_work_items inp2 m2 n key iv2 (List.range n)).block j) :
    (run_work_items inp m n key iv (List.range n)).block (j + 1) ≠
      (run_work_items inp2 m2 n key iv2 (List.range n)).block (j + 1) := by
  intro e
  rw [run_in_order_block inp m n key iv n (Nat.le_refl n) (j + 1) hj,
    run_in_order_block inp2 m2 n key iv2 n (Nat.le_refl n) (j + 1) hj,
    chain_block_pos _ _ _ (by omega), chain_block_pos _ _ _ (by omega), hsame] at e
  simp only [Nat.add_sub_cancel] at e
  have b1 := run_in_order_isBlock inp m n key iv hk hiv hinp j (by omega)
  have b2 := run_in_order_isBlock inp2 m2 n key iv2 hk hiv2 hinp2 j (by omega)
  have e2 := encrypt_with_key_inj hk (xor_block_isBlock (block_at_isBlock hinp2 _) b1)
    (xor_block_isBlock (block_at_isBlock hinp2 _) b2) e
  exact hd (xor_block_right_inj b1.1 b2.1 (block_at_length _ _) e2)

/-- Once the two runs differ in a ciphertext block they differ in every later block,
as long as the plaintexts agree from there on. -/
theorem run_in_order_cascade (inp inp2 : List Nat) (m m2 : GlobalMem) (n : Nat)
    (key iv iv2 : List Nat) (hk : IsBytes key) (hiv : IsBytes iv) (hiv2 : IsBytes iv2)
    (hinp : IsBytes inp) (hinp2 : IsBytes inp2) (i : Nat)
    (hsame : ∀ j, i < j → j < n → block_at inp j = block_at inp2 j)
    (hd : (run_work_items inp m n key iv (List.range n)).block i ≠
      (run_work_items inp2 m2 n key iv2 (List.range n)).block i) :
    ∀ d, i + d < n → (run_work_items inp m n key iv (List.range n)).block (i + d) ≠
      (run_work_items inp2 m2 n key iv2 (List.range n)).block (i + d) := by
  intro d
  induction d with
  | zero => intro _; exact hd
  | succ d ih =>
    intro hlt
    exact run_in_order_step inp inp2 m m2 n key iv iv2 hk hiv hiv2 hinp hinp2 (i + d) hlt
      (hsame _ (by omega) hlt) (ih (by omega))

/-! ## More on the key schedule -/

/-- Round key 0 is the key. -/
theorem key_expansion_first16 (key : List Nat) (m : GlobalMem) (r : Nat) :
    ∀ i < 16, (key_expansion key m r).load (r + i) = key.getD i 0 := by
  intro i hi
  rw [key_expansion_eq]
  have := key_expansion_loop_induct r
    (fun s => 16 ≤ s.i ∧ s.mem.load (r + i) = key.getD i 0)
    (by
      intro s ⟨h16, hl⟩ _
      refine ⟨?_, ?_⟩
      · rw [key_expansion_body_i]; omega
      · rw [key_expansion_body_load r s h16, if_neg (by omega)]
        exact hl)
    176 (key_expansion_init key { m with events := Event.call_key_expansion :: m.events } r)
    ⟨(key_expansion_init_inv _ _ _).1, by
      rw [key_expansion_init_load, if_pos (by omega), Nat.add_sub_cancel_left]⟩
  exact this.2

/-! ## The record of a work item -/

theorem aes_cbc_encrypt_events (inp : List Nat) (m : GlobalMem) (n : Nat) (key iv : List Nat)
    (idx : Nat) (h : idx < n) :
    (aes_cbc_encrypt inp m n key iv idx).events =
      ((List.range 16).map (fun i => Event.store (idx * 16 + i))).reverse ++
        (((List.range 176).map (fun j => Event.store (n * 16 + j))).reverse ++
          Event.call_key_expansion :: m.events) := by
  rw [aes_cbc_encrypt_eq inp m n key iv idx h, store_range_events, key_expansion_events]

theorem count_call_stores (f : Nat → Nat) (l : List Nat) :
    ((l.map (fun i => Event.store (f i))).reverse).count Event.call_key_expansion = 0 := by
  rw [List.count_eq_zero]
  intro hmem
  obtain ⟨i, _, hi⟩ := List.mem_map.1 (List.mem_reverse.1 hmem)
  cases hi

theorem aes_cbc_encrypt_calls (inp : List Nat) (m : GlobalMem) (n : Nat) (key iv : List Nat)
    (idx : Nat) (h : idx < n) :
    (aes_cbc_encrypt inp m n key iv idx).events.count Event.call_key_expansion =
      m.events.count Event.call_key_expansion + 1 := by
  rw [aes_cbc_encrypt_events inp m n key iv idx h, List.count_append, List.count_append,
    count_call_stores (fun i => idx * 16 + i), count_call_stores (fun j => n * 16 + j),
    List.count_cons_self]
  omega

/-! ## A byte of the input replaced -/

theorem getD_set (l : List Nat) (p v a : Nat) :
    (l.set p v).getD a 0 = if p = a ∧ p < l.length then v else l.getD a 0 := by
  rw [List.getD_eq_getElem?_getD, List.getElem?_set, List.getD_eq_getElem?_getD]
  by_cases h1 : p = a
  · subst h1
    by_cases h2 : p < l.length
    · simp [h2]
    · have h3 : l.length ≤ p := by omega
      simp [h2, List.getElem?_eq_none h3]
  · simp [h1]

theorem block_at_getD (l : List Nat) (i j : Nat) (hj : j < 16) :
    (block_at l i).getD j 0 = l.getD (i * 16 + j) 0 := by
  unfold block_at
  rw [List.getD_eq_getElem?_getD, List.getElem?_map, List.getElem?_range hj]
  rfl

theorem block_at_set_other (l : List Nat) (p v j : Nat) (h : j ≠ p / 16) :
    block_at (l.set p v) j = block_at l j := by
  unfold block_at
  apply List.map_congr_left
  intro t ht
  have := List.mem_range.1 ht
  rw [getD_set, if_neg (by omega)]

theorem block_at_set_self (l : List Nat) (p v : Nat) (hp : p < l.length)
    (hv : v ≠ l.getD p 0) : block_at (l.set p v) (p / 16) ≠ block_at l (p / 16) := by
  intro e
  have e2 := congrArg (fun b => b.getD (p % 16) 0) e
  simp only at e2
  rw [block_at_getD _ _ _ (Nat.mod_lt _ (by decide)),
    block_at_getD _ _ _ (Nat.mod_lt _ (by decide)),
    show p / 16 * 16 + p % 16 = p by omega, getD_set, if_pos ⟨rfl, hp⟩] at e2
  exact hv e2

theorem isBytes_set {l : List Nat} (h : IsBytes l) (p : Nat) {v : Nat} (hv : v < 256) :
    IsBytes (l.set p v) := by
  intro x hx
  rcases List.mem_or_eq_of_mem_set hx with h1 | h1
  · exact h x h1
  · rw [h1]; exact hv

theorem flip_bit_ne (x b : Nat) : x ^^^ 2 ^ b ≠ x := by
  intro e
  have h0 : x ^^^ 2 ^ b = x ^^^ 0 := by rw [Nat.xor_zero]; exact e
  have := Nat.xor_right_inj.1 h0
  exact absurd this (Nat.pos_iff_ne_zero.1 (Nat.pow_pos (by decide)))

theorem flip_bit_lt {x b : Nat} (hx : x < 256) (hb : b < 8) : x ^^^ 2 ^ b < 256 := by
  apply xor_lt_256 hx
  have : 2 ^ b < 2 ^ 8 := Nat.pow_lt_pow_right (by decide) hb
  simpa using this

/-! ## The in-order run, with the length spelled out -/

theorem aes_encrypt_cbc_in_order_len (key iv inp out dev : List Nat) (length n : Nat)
    (hkey : key.length = 16) (hiv : iv.length = 16) (hlen : inp.length = length)
    (hn : n = length / 16) (hout : length ≤ out.length) :
    ∀ i < n,
      block_at (aes_encrypt_cbc inp out length key iv dev (List.range n)) i =
      encrypt_with_key key (xor_block (block_at inp i)
        (if i = 0 then iv
         else block_at (aes_encrypt_cbc inp out length key iv dev (List.range n)) (i - 1))) := by
  subst hlen hn
  exact aes_encrypt_cbc_in_order key iv inp out dev hkey hiv hout

theorem device_run_eq_len (inp key iv dev order : List Nat) (length n : Nat)
    (hkey : key.length = 16) (hiv : iv.length = 16) (hlen : inp.length = length)
    (hn : n = length / 16) :
    device_run inp length key iv dev order =
      run_work_items inp (GlobalMem.ofList dev) n key iv order := by
  subst hlen hn
  exact device_run_eq inp key iv dev order hkey hiv

/-- The ciphertext blocks of an in-order run are blocks of bytes. -/
theorem aes_encrypt_cbc_isBlock (key iv inp out dev : List Nat) (length n : Nat)
    (hkey : IsBlock key) (hiv : IsBlock iv) (hlen : inp.length = length)
    (hn : n = length / 16) (hout : length ≤ out.length) (hinp : IsBytes inp) :
    ∀ i < n, IsBlock (block_at (aes_encrypt_cbc inp out length key iv dev (List.range n)) i) := by
  intro i hi
  rw [aes_encrypt_cbc_block _ _ _ _ _ _ _ _ (by omega) hout,
    device_run_eq_len inp key iv dev _ length n hkey.1 hiv.1 hlen hn]
  exact run_in_order_isBlock inp _ n key iv hkey.2 hiv.2 hinp i hi

/-! ## The zero key -/

/-- The AES-128 encryption of the zero block under the zero key. -/
theorem encrypt_zero :
    encrypt_with_key (List.replicate 16 0) (List.replicate 16 0) =
      [0x66, 0xe9, 0x4b, 0xd4, 0xef, 0x8a, 0x2c, 0x3b, 0x88, 0x4c, 0xfa, 0x59, 0xca, 0x34,
       0x2b, 0x2e] := by
  decide!

theorem xor_block_zero_left (b : List Nat) (hb : b.length = 16) :
    xor_block (List.replicate 16 0) b = b := by
  obtain ⟨b0, b1, b2, b3, b4, b5, b6, b7, b8, b9, b10, b11, b12, b13, b14, b15, rfl⟩ :=
    list16_exists hb
  simp [xor_block, List.replicate]

theorem block_at_zeros (k i : Nat) : block_at (List.replicate k 0) i = List.replicate 16 0 := by
  unfold block_at
  have h : ∀ a, (List.replicate k 0).getD a 0 = 0 := by
    intro a
    rw [List.getD_eq_getElem?_getD]
    cases h : (List.replicate k 0)[a]? with
    | none => rfl
    | some x => exact List.eq_of_mem_replicate (List.getElem?_mem h)
  simp only [h]
  decide

/-! ## The claims -/

/-- C1: known-answer test. For the FIPS-197 Appendix C.1 vector (key `00 01 .. 0f`, state
`00 11 .. ff`) `aes128_encrypt_block` under the round keys that `key_expansion` writes,
into any buffer at any address, yields `69 c4 e0 d8 6a 7b 04 30 d8 cd b7 80 70 b4 c5 5a`,
and for the Appendix B vector (key `2b 7e .. 3c`, input `32 43 .. 34`) it yields
`39 25 84 1d 02 dc 09 fb dc 11 85 97 19 6a 0b 32`. -/
theorem aes128_known_answers (m : GlobalMem) (r : Nat) :
    aes128_encrypt_block
        [0x00, 0x11, 0x22, 0x33, 0x44, 0x55, 0x66, 0x77, 0x88, 0x99, 0xaa, 0xbb, 0xcc, 0xdd,
         0xee, 0xff]
        (key_expansion
          [0x00, 0x01, 0x02, 0x03, 0x04, 0x05, 0x06, 0x07, 0x08, 0x09, 0x0a, 0x0b, 0x0c, 0x0d,
           0x0e, 0x0f] m r) r =
      [0x69, 0xc4, 0xe0, 0xd8, 0x6a, 0x7b, 0x04, 0x30, 0xd8, 0xcd, 0xb7, 0x80, 0x70, 0xb4,
       0xc5, 0x5a] ∧
    aes128_encrypt_block
        [0x32, 0x43, 0xf6, 0xa8, 0x88, 0x5a, 0x30, 0x8d, 0x31, 0x31, 0x98, 0xa2, 0xe0, 0x37,
         0x07, 0x34]
        (key_expansion
          [0x2b, 0x7e, 0x15, 0x16, 0x28, 0xae, 0xd2, 0xa6, 0xab, 0xf7, 0x15, 0x88, 0x09, 0xcf,
           0x4f, 0x3c] m r) r =
      [0x39, 0x25, 0x84, 0x1d, 0x02, 0xdc, 0x09, 0xfb, 0xdc, 0x11, 0x85, 0x97, 0x19, 0x6a,
       0x0b, 0x32] := by
  have h1 : encrypt_with_key
      [0x00, 0x01, 0x02, 0x03, 0x04, 0x05, 0x06, 0x07, 0x08, 0x09, 0x0a, 0x0b, 0x0c, 0x0d,
       0x0e, 0x0f]
      [0x00, 0x11, 0x22, 0x33, 0x44, 0x55, 0x66, 0x77, 0x88, 0x99, 0xaa, 0xbb, 0xcc, 0xdd,
       0xee, 0xff] =
      [0x69, 0xc4, 0xe0, 0xd8, 0x6a, 0x7b, 0x04, 0x30, 0xd8, 0xcd, 0xb7, 0x80, 0x70, 0xb4,
       0xc5, 0x5a] := by decide!
  have h2 : encrypt_with_key
      [0x2b, 0x7e, 0x15, 0x16, 0x28, 0xae, 0xd2, 0xa6, 0xab, 0xf7, 0x15, 0x88, 0x09, 0xcf,
       0x4f, 0x3c]
      [0x32, 0x43, 0xf6, 0xa8, 0x88, 0x5a, 0x30, 0x8d, 0x31, 0x31, 0x98, 0xa2, 0xe0, 0x37,
       0x07, 0x34] =
      [0x39, 0x25, 0x84, 0x1d, 0x02, 0xdc, 0x09, 0xfb, 0xdc, 0x11, 0x85, 0x97, 0x19, 0x6a,
       0x0b, 0x32] := by decide!
  refine ⟨?_, ?_⟩
  · rw [← h1]
    exact aes128_encrypt_block_congr _ _ _ _ _ (key_expansion_region _ m _ r 0)
  · rw [← h2]
    exact aes128_encrypt_block_congr _ _ _ _ _ (key_expansion_region _ m _ r 0)

/-- C2: the CBC recurrence. For a key and an IV of 16 bytes and a plaintext of `n` blocks,
with the work items of `aes_cbc_encrypt` run one at a time in increasing order, the output
has the length of the plaintext and ciphertext block `i` is
`aes128_encrypt_block(plaintext block i XOR chain_i, key_expansion(key))`, where `chain_0`
is the IV and `chain_i` is ciphertext block `i - 1`; this for any initial contents of the
caller's buffer and of the device buffer. -/
theorem cbc_recurrence (key iv inp out dev : List Nat) (n : Nat) (hkey : key.length = 16)
    (hiv : iv.length = 16) (hinp : inp.length = 16 * n) (hout : out.length = inp.length) :
    (aes_encrypt_cbc inp out (16 * n) key iv dev (List.range n)).length = inp.length ∧
    ∀ i < n,
      block_at (aes_encrypt_cbc inp out (16 * n) key iv dev (List.range n)) i =
        encrypt_with_key key (xor_block (block_at inp i)
          (if i = 0 then iv
           else block_at (aes_encrypt_cbc inp out (16 * n) key iv dev (List.range n))
             (i - 1))) :=
  ⟨by rw [aes_encrypt_cbc_length, hout],
    aes_encrypt_cbc_in_order_len key iv inp out dev (16 * n) n hkey hiv hinp
      (by omega) (by omega)⟩

/-- Witness of C2: two zero blocks under the zero key and the zero IV, second block. -/
theorem cbc_recurrence_witness :
    (List.replicate 16 0).length = 16 ∧ (List.replicate 32 0).length = 16 * 2 ∧
    (List.replicate 32 7).length = (List.replicate 32 0).length ∧
    block_at (aes_encrypt_cbc (List.replicate 32 0) (List.replicate 32 7) (16 * 2)
        (List.replicate 16 0) (List.replicate 16 0) [] (List.range 2)) 1 =
      encrypt_with_key (List.replicate 16 0) (xor_block (block_at (List.replicate 32 0) 1)
        (if 1 = 0 then List.replicate 16 0
         else block_at (aes_encrypt_cbc (List.replicate 32 0) (List.replicate 32 7) (16 * 2)
           (List.replicate 16 0) (List.replicate 16 0) [] (List.range 2)) (1 - 1))) :=
  ⟨by decide, by decide, by decide,
    (cbc_recurrence (List.replicate 16 0) (List.replicate 16 0) (List.replicate 32 0)
      (List.replicate 32 7) [] 2 (by decide) (by decide) (by decide) (by decide)).2 1
      (by decide)⟩

/-- Two zero blocks under the zero key and the zero IV, the work items in increasing
order: ciphertext block 0 is `66 e9 4b d4 ef 8a 2c 3b 88 4c fa 59 ca 34 2b 2e` and
ciphertext block 1 is the encryption under the zero key of (zero block XOR ciphertext
block 0), whatever the buffers held before. -/
theorem two_zero_blocks_in_order (out dev : List Nat) (hout : out.length = 32) :
    block_at (aes_encrypt_cbc (List.replicate 32 0) out 32 (List.replicate 16 0)
        (List.replicate 16 0) dev [0, 1]) 0 =
      [0x66, 0xe9, 0x4b, 0xd4, 0xef, 0x8a, 0x2c, 0x3b, 0x88, 0x4c, 0xfa, 0x59, 0xca, 0x34,
       0x2b, 0x2e] ∧
    block_at (aes_encrypt_cbc (List.replicate 32 0) out 32 (List.replicate 16 0)
        (List.replicate 16 0) dev [0, 1]) 1 =
      encrypt_with_key (List.replicate 16 0)
        (xor_block (List.replicate 16 0)
          (block_at (aes_encrypt_cbc (List.replicate 32 0) out 32 (List.replicate 16 0)
            (List.replicate 16 0) dev [0, 1]) 0)) := by
  have h := aes_encrypt_cbc_in_order_len (List.replicate 16 0) (List.replicate 16 0)
    (List.replicate 32 0) out dev 32 2 (by decide) (by decide) (by decide) (by decide)
    (by omega)
  have e : List.range 2 = [0, 1] := by decide
  rw [e] at h
  have h0 := h 0 (by decide)
  have h1 := h 1 (by decide)
  rw [if_pos rfl, block_at_zeros, xor_block_zero_left _ (by decide), encrypt_zero] at h0
  rw [if_neg (by decide), block_at_zeros] at h1
  exact ⟨h0, h1⟩

/-- C4, counterexample: a plaintext of 17 bytes. The call reports nothing and the
caller's buffer, all zero before the call, is not what it was: one block is processed
and written. -/
theorem unaligned_length_is_processed :
    aes_encrypt_cbc (List.replicate 17 0) (List.replicate 17 0) 17 (List.replicate 16 0)
        (List.replicate 16 0) (List.replicate 193 0) [0] ≠ List.replicate 17 0 := by
  intro e
  have h := aes_encrypt_cbc_in_order_len (List.replicate 16 0) (List.replicate 16 0)
    (List.replicate 17 0) (List.replicate 17 0) (List.replicate 193 0) 17 1 (by decide)
    (by decide) (by decide) (by decide) (by decide) 0 (by decide)
  have e1 : List.range 1 = [0] := by decide
  rw [e1, if_pos rfl, block_at_zeros, xor_block_zero_left _ (by decide), encrypt_zero, e,
    block_at_zeros] at h
  exact absurd h (by decide)

/-- C4, amended: `aes_encrypt_cbc` validates no length and has no way to report an error.
For a length that is not a multiple of 16 it runs one work item for each complete block:
with the work items in order, the caller's buffer keeps its length and its complete
blocks satisfy the CBC recurrence. -/
theorem unaligned_length_blocks (key iv inp out dev : List Nat) (hkey : key.length = 16)
    (hiv : iv.length = 16) (hout : out.length = inp.length) (_hr : inp.length % 16 ≠ 0) :
    (aes_encrypt_cbc inp out inp.length key iv dev (List.range (inp.length / 16))).length =
      inp.length ∧
    ∀ i < inp.length / 16,
      block_at (aes_encrypt_cbc inp out inp.length key iv dev
        (List.range (inp.length / 16))) i =
      encrypt_with_key key (xor_block (block_at inp i)
        (if i = 0 then iv
         else block_at (aes_encrypt_cbc inp out inp.length key iv dev
           (List.range (inp.length / 16))) (i - 1))) :=
  ⟨by rw [aes_encrypt_cbc_length, hout],
    aes_encrypt_cbc_in_order key iv inp out dev hkey hiv (by omega)⟩

/-- Witness of the amended C4: a plaintext of 17 bytes, its one complete block. -/
theorem unaligned_length_blocks_witness :
    (List.replicate 16 0).length = 16 ∧
    (List.replicate 17 0).length = (List.replicate 17 1).length ∧
    (List.replicate 17 1).length % 16 ≠ 0 ∧
    block_at (aes_encrypt_cbc (List.replicate 17 1) (List.replicate 17 0)
        (List.replicate 17 1).length (List.replicate 16 0) (List.replicate 16 0) []
        (List.range ((List.replicate 17 1).length / 16))) 0 =
      encrypt_with_key (List.replicate 16 0) (xor_block (block_at (List.replicate 17 1) 0)
        (if 0 = 0 then List.replicate 16 0
         else block_at (aes_encrypt_cbc (List.replicate 17 1) (List.replicate 17 0)
           (List.replicate 17 1).length (List.replicate 16 0) (List.replicate 16 0) []
           (List.range ((List.replicate 17 1).length / 16))) (0 - 1))) :=
  ⟨by decide, by decide, by decide,
    (unaligned_length_blocks (List.replicate 16 0) (List.replicate 16 0)
      (List.replicate 17 1) (List.replicate 17 0) [] (by decide) (by decide) (by decide)
      (by decide)).2 0 (by decide)⟩

theorem ofList_block (l : List Nat) (i : Nat) : (GlobalMem.ofList l).block i = block_at l i :=
  rfl

theorem run_work_items_cons (inp : List Nat) (m : GlobalMem) (n : Nat) (key iv : List Nat)
    (a : Nat) (l : List Nat) :
    run_work_items inp m n key iv (a :: l) =
      run_work_items inp (aes_cbc_encrypt inp m n key iv a) n key iv l := rfl

theorem run_work_items_nil (inp : List Nat) (m : GlobalMem) (n : Nat) (key iv : List Nat) :
    run_work_items inp m n key iv [] = m := rfl

theorem encrypt_zero_twice :
    encrypt_with_key (List.replicate 16 0)
        [0x66, 0xe9, 0x4b, 0xd4, 0xef, 0x8a, 0x2c, 0x3b, 0x88, 0x4c, 0xfa, 0x59, 0xca, 0x34,
         0x2b, 0x2e] =
      [0xf7, 0x95, 0xbd, 0x4a, 0x52, 0xe2, 0x9e, 0xd7, 0x13, 0xd3, 0x13, 0xfa, 0x20, 0xe9,
       0x8d, 0xbc] := by
  decide!

/-- Two zero blocks under the zero key and the zero IV, the device buffer zero at the
start, work item 1 run before work item 0: both ciphertext blocks are the encryption of
the zero block. -/
theorem two_zero_blocks_reversed :
    block_at (aes_encrypt_cbc (List.replicate 32 0) (List.replicate 32 0) 32
        (List.replicate 16 0) (List.replicate 16 0) (List.replicate 208 0) [1, 0]) 0 =
      [0x66, 0xe9, 0x4b, 0xd4, 0xef, 0x8a, 0x2c, 0x3b, 0x88, 0x4c, 0xfa, 0x59, 0xca, 0x34,
       0x2b, 0x2e] ∧
    block_at (aes_encrypt_cbc (List.replicate 32 0) (List.replicate 32 0) 32
        (List.replicate 16 0) (List.replicate 16 0) (List.replicate 208 0) [1, 0]) 1 =
      [0x66, 0xe9, 0x4b, 0xd4, 0xef, 0x8a, 0x2c, 0x3b, 0x88, 0x4c, 0xfa, 0x59, 0xca, 0x34,
       0x2b, 0x2e] := by
  constructor
  · rw [aes_encrypt_cbc_block _ _ _ _ _ _ _ _ (by decide) (by decide),
      device_run_eq_len _ _ _ _ _ 32 2 (by decide) (by decide) (by decide) (by decide),
      run_work_items_cons, run_work_items_cons, run_work_items_nil,
      aes_cbc_encrypt_block_self _ _ _ _ _ _ (by decide), block_at_zeros,
      xor_block_zero_left _ (chain_block_length _ _ _), chain_block_zero _ _ (by decide),
      encrypt_zero]
  · rw [aes_encrypt_cbc_block _ _ _ _ _ _ _ _ (by decide) (by decide),
      device_run_eq_len _ _ _ _ _ 32 2 (by decide) (by decide) (by decide) (by decide),
      run_work_items_cons, run_work_items_cons, run_work_items_nil,
      aes_cbc_encrypt_block_other _ _ _ _ _ _ _ (by decide) (by decide),
      aes_cbc_encrypt_block_self _ _ _ _ _ _ (by decide), block_at_zeros,
      xor_block_zero_left _ (chain_block_length _ _ _), chain_block_pos _ _ _ (by decide),
      ofList_block, block_at_zeros, encrypt_zero]

/-- C3, the code at the failing input: the scenario's zero key, zero IV and two zero
blocks, the device buffer zero at the start, work item 1 run before work item 0. Work item
1 chains on the sixteen bytes that the buffer held at the start, not on ciphertext block 0.
Ciphertext block 0 is `66 e9 4b d4 ef 8a 2c 3b 88 4c fa 59 ca 34 2b 2e`, as the scenario
says, but ciphertext block 1 is the same sixteen bytes, whereas the encryption under the
zero key of (zero block XOR ciphertext block 0) is
`f7 95 bd 4a 52 e2 9e d7 13 d3 13 fa 20 e9 8d bc`. -/
theorem two_zero_blocks_out_of_order :
    block_at (aes_encrypt_cbc (List.replicate 32 0) (List.replicate 32 0) 32
        (List.replicate 16 0) (List.replicate 16 0) (List.replicate 208 0) [1, 0]) 0 =
      [0x66, 0xe9, 0x4b, 0xd4, 0xef, 0x8a, 0x2c, 0x3b, 0x88, 0x4c, 0xfa, 0x59, 0xca, 0x34,
       0x2b, 0x2e] ∧
    block_at (aes_encrypt_cbc (List.replicate 32 0) (List.replicate 32 0) 32
        (List.replicate 16 0) (List.replicate 16 0) (List.replicate 208 0) [1, 0]) 1 =
      [0x66, 0xe9, 0x4b, 0xd4, 0xef, 0x8a, 0x2c, 0x3b, 0x88, 0x4c, 0xfa, 0x59, 0xca, 0x34,
       0x2b, 0x2e] ∧
    encrypt_with_key (List.replicate 16 0)
        (xor_block (List.replicate 16 0)
          (block_at (aes_encrypt_cbc (List.replicate 32 0) (List.replicate 32 0) 32
            (List.replicate 16 0) (List.replicate 16 0) (List.replicate 208 0) [1, 0]) 0)) =
      [0xf7, 0x95, 0xbd, 0x4a, 0x52, 0xe2, 0x9e, 0xd7, 0x13, 0xd3, 0x13, 0xfa, 0x20, 0xe9,
       0x8d, 0xbc] ∧
    block_at (aes_encrypt_cbc (List.replicate 32 0) (List.replicate 32 0) 32
        (List.replicate 16 0) (List.replicate 16 0) (List.replicate 208 0) [1, 0]) 1 ≠
      encrypt_with_key (List.replicate 16 0)
        (xor_block (List.replicate 16 0)
          (block_at (aes_encrypt_cbc (List.replicate 32 0) (List.replicate 32 0) 32
            (List.replicate 16 0) (List.replicate 16 0) (List.replicate 208 0) [1, 0]) 0)) := by
  have h := two_zero_blocks_reversed
  have e : encrypt_with_key (List.replicate 16 0)
      (xor_block (List.replicate 16 0)
        (block_at (aes_encrypt_cbc (List.replicate 32 0) (List.replicate 32 0) 32
          (List.replicate 16 0) (List.replicate 16 0) (List.replicate 208 0) [1, 0]) 0)) =
      [0xf7, 0x95, 0xbd, 0x4a, 0x52, 0xe2, 0x9e, 0xd7, 0x13, 0xd3, 0x13, 0xfa, 0x20, 0xe9,
       0x8d, 0xbc] := by
    rw [h.1, xor_block_zero_left _ (by decide), encrypt_zero_twice]
  refine ⟨h.1, h.2, e, ?_⟩
  rw [e, h.2]
  decide

/-- C5, the code at the failing input: two zero blocks under the zero key and the zero
IV, the device buffer zero at the start. When work item 1 runs before work item 0 it
chains on the sixteen bytes that the buffer held at the start, and the ciphertext is not
the one of the run in increasing order. -/
theorem out_of_order_ciphertext_differs :
    aes_encrypt_cbc (List.replicate 32 0) (List.replicate 32 0) 32 (List.replicate 16 0)
        (List.replicate 16 0) (List.replicate 208 0) [1, 0] ≠
      aes_encrypt_cbc (List.replicate 32 0) (List.replicate 32 0) 32 (List.replicate 16 0)
        (List.replicate 16 0) (List.replicate 208 0) [0, 1] := by
  intro e
  -- block 1 of the run in order
  have h := two_zero_blocks_in_order (List.replicate 32 0) (List.replicate 208 0) (by decide)
  have hin := h.2
  rw [h.1, xor_block_zero_left _ (by decide), ← e] at hin
  -- block 1 of the run in the order 1, 0
  rw [aes_encrypt_cbc_block _ _ _ _ _ _ _ _ (by decide) (by decide),
    device_run_eq_len _ _ _ _ _ 32 2 (by decide) (by decide) (by decide) (by decide)] at hin
  have hrun : (run_work_items (List.replicate 32 0)
      (GlobalMem.ofList (List.replicate 208 0)) 2 (List.replicate 16 0)
      (List.replicate 16 0) [1, 0]).block 1 =
      encrypt_with_key (List.replicate 16 0) (List.replicate 16 0) := by
    rw [run_work_items_cons, run_work_items_cons, run_work_items_nil,
      aes_cbc_encrypt_block_other _ _ _ _ _ _ _ (by decide) (by decide),
      aes_cbc_encrypt_block_self _ _ _ _ _ _ (by decide), block_at_zeros,
      xor_block_zero_left _ (chain_block_length _ _ _), chain_block_pos _ _ _ (by decide),
      ofList_block, block_at_zeros]
  rw [hrun] at hin
  have hk : IsBytes (List.replicate 16 0) := by decide
  have := encrypt_with_key_inj hk (by decide) (by decide) hin
  exact absurd this (by decide)

theorem chain_block_isBlock (inp : List Nat) (m : GlobalMem) (n : Nat) (key iv : List Nat)
    (hk : IsBytes key) (hiv : IsBytes iv) (hinp : IsBytes inp) (i : Nat) (hi : i < n) :
    IsBlock (chain_block (run_work_items inp m n key iv (List.range n)) iv i) := by
  by_cases c : i = 0
  · subst c
    exact chain_block_isBlock_zero _ hiv
  · rw [chain_block_pos _ _ _ c]
    exact run_in_order_isBlock inp m n key iv hk hiv hinp _ (by omega)

/-- The first block in which the plaintexts differ gives different ciphertext blocks. -/
theorem run_in_order_first_diff (inp inp2 : List Nat) (m m2 : GlobalMem) (n : Nat)
    (key iv : List Nat) (hk : IsBytes key) (hiv : IsBytes iv) (hinp : IsBytes inp)
    (hinp2 : IsBytes inp2) (i : Nat) (hi : i < n)
    (hpre : ∀ j < i, block_at inp j = block_at inp2 j)
    (hd : block_at inp i ≠ block_at inp2 i) :
    (run_work_items inp m n key iv (List.range n)).block i ≠
      (run_work_items inp2 m2 n key iv (List.range n)).block i := by
  intro e
  have hc : chain_block (run_work_items inp m n key iv (List.range n)) iv i =
      chain_block (run_work_items inp2 m2 n key iv (List.range n)) iv i :=
    chain_block_congr _ _ _ _ (fun h0 =>
      run_in_order_prefix inp inp2 m m2 n key iv i (by omega) hpre (i - 1) (by omega))
  rw [run_in_order_block inp m n key iv n (Nat.le_refl n) i hi,
    run_in_order_block inp2 m2 n key iv n (Nat.le_refl n) i hi, hc] at e
  have b2 := chain_block_isBlock inp2 m2 n key iv hk hiv hinp2 i hi
  have e2 := encrypt_with_key_inj hk (xor_block_isBlock (block_at_isBlock hinp _) b2)
    (xor_block_isBlock (block_at_isBlock hinp2 _) b2) e
  exact hd (xor_block_left_inj (block_at_length _ _) (block_at_length _ _) b2.1 e2)

/-- C6: chaining propagation, forward. For a key and an IV of 16 bytes and two plaintexts
of `n` blocks of bytes of which the second is the first with bit `b` of byte `p` flipped
(so they differ in a single bit, in block `p / 16`, and agree on every other block), with
the work items in order every ciphertext block `j` with `p / 16 ≤ j < n` differs between
the two runs. -/
theorem cbc_forward_propagation (key iv inp out out2 dev dev2 : List Nat) (n p b : Nat)
    (hkey : IsBlock key) (hiv : IsBlock iv) (hinp : inp.length = 16 * n)
    (hbytes : IsBytes inp) (hout : out.length = inp.length) (hout2 : out2.length = inp.length)
    (hp : p < inp.length) (hb : b < 8) :
    ∀ j, p / 16 ≤ j → j < n →
      block_at (aes_encrypt_cbc inp out (16 * n) key iv dev (List.range n)) j ≠
        block_at (aes_encrypt_cbc (inp.set p (inp.getD p 0 ^^^ 2 ^ b)) out2 (16 * n) key iv
          dev2 (List.range n)) j := by
  intro j hij hjn
  have hlen2 : (inp.set p (inp.getD p 0 ^^^ 2 ^ b)).length = 16 * n := by
    rw [List.length_set, hinp]
  have hbytes2 : IsBytes (inp.set p (inp.getD p 0 ^^^ 2 ^ b)) :=
    isBytes_set hbytes p (flip_bit_lt (hbytes.getD p) hb)
  rw [aes_encrypt_cbc_block _ _ _ _ _ _ _ _ (by omega) (by omega),
    aes_encrypt_cbc_block _ _ _ _ _ _ _ _ (by omega) (by omega),
    device_run_eq_len inp key iv dev _ (16 * n) n hkey.1 hiv.1 hinp (by omega),
    device_run_eq_len _ key iv dev2 _ (16 * n) n hkey.1 hiv.1 hlen2 (by omega)]
  have hfirst := run_in_order_first_diff inp (inp.set p (inp.getD p 0 ^^^ 2 ^ b))
    (GlobalMem.ofList dev) (GlobalMem.ofList dev2) n key iv hkey.2 hiv.2 hbytes hbytes2
    (p / 16) (by omega)
    (fun t ht => (block_at_set_other inp p _ t (by omega)).symm)
    (fun e => block_at_set_self inp p _ hp (flip_bit_ne _ b) e.symm)
  have hcas := run_in_order_cascade inp (inp.set p (inp.getD p 0 ^^^ 2 ^ b))
    (GlobalMem.ofList dev) (GlobalMem.ofList dev2) n key iv iv hkey.2 hiv.2 hiv.2 hbytes
    hbytes2 (p / 16)
    (fun t ht _ => (block_at_set_other inp p _ t (by omega)).symm) hfirst (j - p / 16)
    (by omega)
  rw [show p / 16 + (j - p / 16) = j by omega] at hcas
  exact hcas

/-- Witness of C6: two zero blocks, bit 0 of byte 3 flipped, the second block. -/
theorem cbc_forward_propagation_witness :
    IsBlock (List.replicate 16 0) ∧ (List.replicate 32 0).length = 16 * 2 ∧
    IsBytes (List.replicate 32 0) ∧ 3 < (List.replicate 32 0).length ∧ 0 < 8 ∧ 3 / 16 ≤ 1 ∧
    1 < 2 ∧
    block_at (aes_encrypt_cbc (List.replicate 32 0) (List.replicate 32 0) (16 * 2)
        (List.replicate 16 0) (List.replicate 16 0) [] (List.range 2)) 1 ≠
      block_at (aes_encrypt_cbc
        ((List.replicate 32 0).set 3 ((List.replicate 32 0).getD 3 0 ^^^ 2 ^ 0))
        (List.replicate 32 0) (16 * 2) (List.replicate 16 0) (List.replicate 16 0) []
        (List.range 2)) 1 :=
  ⟨by decide, by decide, by decide, by decide, by decide, by decide, by decide,
    cbc_forward_propagation (List.replicate 16 0) (List.replicate 16 0) (List.replicate 32 0)
      (List.replicate 32 0) (List.replicate 32 0) [] [] 2 3 0 (by decide) (by decide)
      (by decide) (by decide) (by decide) (by decide) (by decide) (by decide) 1 (by decide)
      (by decide)⟩

/-- C7: chaining propagation, prefix. For a key and an IV of 16 bytes and two plaintexts of
`n` blocks that agree on the blocks `0 .. i-1`, with the work items in order the
ciphertext blocks `0 .. i-1` of the two runs are the same, whatever the later blocks and
the initial contents of the buffers. -/
theorem cbc_prefix_unchanged (key iv inp inp2 out out2 dev dev2 : List Nat) (n i : Nat)
    (hkey : key.length = 16) (hiv : iv.length = 16) (hinp : inp.length = 16 * n)
    (hinp2 : inp2.length = 16 * n) (hout : out.length = inp.length)
    (hout2 : out2.length = inp2.length) (hi : i ≤ n)
    (hagree : ∀ j < i, block_at inp j = block_at inp2 j) :
    ∀ j < i,
      block_at (aes_encrypt_cbc inp out (16 * n) key iv dev (List.range n)) j =
        block_at (aes_encrypt_cbc inp2 out2 (16 * n) key iv dev2 (List.range n)) j := by
  intro j hj
  rw [aes_encrypt_cbc_block _ _ _ _ _ _ _ _ (by omega) (by omega),
    aes_encrypt_cbc_block _ _ _ _ _ _ _ _ (by omega) (by omega),
    device_run_eq_len inp key iv dev _ (16 * n) n hkey hiv hinp (by omega),
    device_run_eq_len inp2 key iv dev2 _ (16 * n) n hkey hiv hinp2 (by omega)]
  exact run_in_order_prefix inp inp2 _ _ n key iv i hi hagree j hj

/-- Witness of C7: two plaintexts of two blocks with the same first block. -/
theorem cbc_prefix_unchanged_witness :
    (List.replicate 16 0).length = 16 ∧ (List.replicate 32 0).length = 16 * 2 ∧
    (List.replicate 16 0 ++ List.replicate 16 1).length = 16 * 2 ∧ 1 ≤ 2 ∧
    (∀ j < 1, block_at (List.replicate 32 0) j =
      block_at (List.replicate 16 0 ++ List.replicate 16 1) j) ∧
    block_at (aes_encrypt_cbc (List.replicate 32 0) (List.replicate 32 0) (16 * 2)
        (List.replicate 16 0) (List.replicate 16 0) [] (List.range 2)) 0 =
      block_at (aes_encrypt_cbc (List.replicate 16 0 ++ List.replicate 16 1)
        (List.replicate 32 5) (16 * 2) (List.replicate 16 0) (List.replicate 16 0) [7]
        (List.range 2)) 0 :=
  ⟨by decide, by decide, by decide, by decide, by decide,
    cbc_prefix_unchanged (List.replicate 16 0) (List.replicate 16 0) (List.replicate 32 0)
      (List.replicate 16 0 ++ List.replicate 16 1) (List.replicate 32 0)
      (List.replicate 32 5) [] [7] 2 1 (by decide) (by decide) (by decide) (by decide)
      (by decide) (by decide) (by decide) (by decide) 0 (by decide)⟩

/-- C8: IV sensitivity. For a key of 16 bytes, a plaintext of `n` blocks of bytes and two
distinct IVs of 16 bytes, with the work items in order ciphertext block 0 differs between
the two runs and so does every later block. -/
theorem cbc_iv_sensitivity (key iv iv2 inp out out2 dev dev2 : List Nat) (n : Nat)
    (hkey : IsBlock key) (hiv : IsBlock iv) (hiv2 : IsBlock iv2) (hne : iv ≠ iv2)
    (hinp : inp.length = 16 * n) (hbytes : IsBytes inp) (hout : out.length = inp.length)
    (hout2 : out2.length = inp.length) :
    ∀ j < n,
      block_at (aes_encrypt_cbc inp out (16 * n) key iv dev (List.range n)) j ≠
        block_at (aes_encrypt_cbc inp out2 (16 * n) key iv2 dev2 (List.range n)) j := by
  intro j hj
  rw [aes_encrypt_cbc_block _ _ _ _ _ _ _ _ (by omega) (by omega),
    aes_encrypt_cbc_block _ _ _ _ _ _ _ _ (by omega) (by omega),
    device_run_eq_len inp key iv dev _ (16 * n) n hkey.1 hiv.1 hinp (by omega),
    device_run_eq_len inp key iv2 dev2 _ (16 * n) n hkey.1 hiv2.1 hinp (by omega)]
  have h0 : (run_work_items inp (GlobalMem.ofList dev) n key iv (List.range n)).block 0 ≠
      (run_work_items inp (GlobalMem.ofList dev2) n key iv2 (List.range n)).block 0 := by
    intro e
    rw [run_in_order_block inp _ n key iv n (Nat.le_refl n) 0 (by omega),
      run_in_order_block inp _ n key iv2 n (Nat.le_refl n) 0 (by omega),
      chain_block_zero _ _ hiv.1, chain_block_zero _ _ hiv2.1] at e
    have e2 := encrypt_with_key_inj hkey.2 (xor_block_isBlock (block_at_isBlock hbytes _) hiv)
      (xor_block_isBlock (block_at_isBlock hbytes _) hiv2) e
    exact hne (xor_block_right_inj hiv.1 hiv2.1 (block_at_length _ _) e2)
  have hcas := run_in_order_cascade inp inp (GlobalMem.ofList dev) (GlobalMem.ofList dev2) n
    key iv iv2 hkey.2 hiv.2 hiv2.2 hbytes hbytes 0 (fun _ _ _ => rfl) h0 j (by omega)
  rw [Nat.zero_add] at hcas
  exact hcas

/-- Witness of C8: two zero blocks, the zero IV against the IV of sixteen ones. -/
theorem cbc_iv_sensitivity_witness :
    IsBlock (List.replicate 16 0) ∧ IsBlock (List.replicate 16 1) ∧
    List.replicate 16 0 ≠ List.replicate 16 1 ∧ (List.replicate 32 0).length = 16 * 2 ∧
    IsBytes (List.replicate 32 0) ∧
    block_at (aes_encrypt_cbc (List.replicate 32 0) (List.replicate 32 0) (16 * 2)
        (List.replicate 16 0) (List.replicate 16 0) [] (List.range 2)) 1 ≠
      block_at (aes_encrypt_cbc (List.replicate 32 0) (List.replicate 32 0) (16 * 2)
        (List.replicate 16 0) (List.replicate 16 1) [] (List.range 2)) 1 :=
  ⟨by decide, by decide, by decide, by decide, by decide,
    cbc_iv_sensitivity (List.replicate 16 0) (List.replicate 16 0) (List.replicate 16 1)
      (List.replicate 32 0) (List.replicate 32 0) (List.replicate 32 0) [] [] 2 (by decide)
      (by decide) (by decide) (by decide) (by decide) (by decide) (by decide) (by decide) 1
      (by decide)⟩

/-- C9: key-schedule length and round key 0. For a key of 16 bytes, `key_expansion`,
called on any buffer at any address `r`: makes exactly 176 stores, one to each of the
addresses `r .. r+175` in increasing order (its loop leaves with `i = 176`), and changes
no other byte; the first 16 bytes of the schedule are the key; and the 176 bytes are the
same for the same key, whatever the buffer and the address. -/
theorem key_expansion_fills_schedule (key : List Nat) (hkey : key.length = 16)
    (m n : GlobalMem) (r q : Nat) :
    (key_expansion key m r).events =
      ((List.range 176).map (fun j => Event.store (r + j))).reverse ++
        Event.call_key_expansion :: m.events ∧
    (key_expansion_loop r 176 (key_expansion_init key m r)).i = 176 ∧
    (∀ a, a < r ∨ r + 176 ≤ a → (key_expansion key m r).load a = m.load a) ∧
    (List.range 16).map (fun i => (key_expansion key m r).load (r + i)) = key ∧
    (∀ j < 176, (key_expansion key m r).load (r + j) = (key_expansion key n q).load (q + j)) := by
  refine ⟨key_expansion_events key m r, ?_, ?_, ?_, key_expansion_region key m n r q⟩
  · exact key_expansion_loop_exit r 176 _ (key_expansion_init_inv key m r).2.1
      (key_expansion_init_inv key m r).2.2 (by
        have := (key_expansion_init_inv key m r).1
        omega)
  · intro a ha
    rw [key_expansion_load, if_neg (by omega)]
  · refine Eq.trans ?_ (map_getD_range16 hkey)
    apply List.map_congr_left
    intro i hi
    exact key_expansion_first16 key m r i (List.mem_range.1 hi)

/-- Witness of C9: the zero key expanded at address 0 of an empty buffer. -/
theorem key_expansion_fills_schedule_witness :
    (List.replicate 16 0).length = 16 ∧
    (List.range 16).map
      (fun i => (key_expansion (List.replicate 16 0) (GlobalMem.ofList []) 0).load (0 + i)) =
      List.replicate 16 0 :=
  ⟨by decide,
    (key_expansion_fills_schedule (List.replicate 16 0) (by decide) (GlobalMem.ofList [])
      (GlobalMem.ofList [1]) 0 5).2.2.2.1⟩

theorem run_in_order_calls (inp : List Nat) (m : GlobalMem) (n : Nat) (key iv : List Nat)
    (k : Nat) (hk : k ≤ n) :
    (run_work_items inp m n key iv (List.range k)).events.count Event.call_key_expansion =
      m.events.count Event.call_key_expansion + k := by
  induction k with
  | zero => rfl
  | succ k ih =>
    rw [run_work_items_succ, aes_cbc_encrypt_calls _ _ _ _ _ _ (by omega), ih (by omega)]
    omega

/-- C10, counterexample: two zero blocks under the zero key. The record of the run holds
two calls of `key_expansion`; its 193 most recent events are those of work item 1, the
rest being the record of work item 0 alone, which has written block 0 by then; and among
them is a store to address 32, the first byte of the schedule. -/
theorem schedule_rederived_two_blocks :
    (device_run (List.replicate 32 0) 32 (List.replicate 16 0) (List.replicate 16 0)
      (List.replicate 208 0) [0, 1]).events.count Event.call_key_expansion = 2 ∧
    (device_run (List.replicate 32 0) 32 (List.replicate 16 0) (List.replicate 16 0)
      (List.replicate 208 0) [0, 1]).events.drop 193 =
      (device_run (List.replicate 32 0) 32 (List.replicate 16 0) (List.replicate 16 0)
        (List.replicate 208 0) [0]).events ∧
    Event.store 15 ∈ (device_run (List.replicate 32 0) 32 (List.replicate 16 0)
      (List.replicate 16 0) (List.replicate 208 0) [0]).events ∧
    Event.store 32 ∈ (device_run (List.replicate 32 0) 32 (List.replicate 16 0)
      (List.replicate 16 0) (List.replicate 208 0) [0, 1]).events.take 193 := by
  decide!

/-- C10, amended: in a run of `aes_cbc_encrypt` over `n` blocks, the work items in order,
`key_expansion` is executed once by every work item: after the work items `0 .. k-1` it
has been called `k` times; work item `k` calls it first, stores to each of the 176 bytes
of the schedule at `16*n`, and then writes its block; and from the first work item on
the 176 bytes hold the schedule of the key. -/
theorem schedule_rederived_by_every_work_item (key iv inp dev : List Nat) (n k : Nat)
    (hkey : key.length = 16) (hiv : iv.length = 16) (hinp : inp.length = 16 * n)
    (hk : k ≤ n) :
    (device_run inp (16 * n) key iv dev (List.range k)).events.count
        Event.call_key_expansion = k ∧
    (k < n → (device_run inp (16 * n) key iv dev (List.range (k + 1))).events =
      ((List.range 16).map (fun i => Event.store (k * 16 + i))).reverse ++
        (((List.range 176).map (fun j => Event.store (n * 16 + j))).reverse ++
          Event.call_key_expansion ::
            (device_run inp (16 * n) key iv dev (List.range k)).events)) ∧
    (1 ≤ k → ∀ j < 176,
      (device_run inp (16 * n) key iv dev (List.range k)).load (16 * n + j) =
        (key_schedule key).load j) := by
  have hd : ∀ order, device_run inp (16 * n) key iv dev order =
      run_work_items inp (GlobalMem.ofList dev) n key iv order := fun order =>
    device_run_eq_len inp key iv dev order (16 * n) n hkey hiv hinp (by omega)
  refine ⟨?_, ?_, ?_⟩
  · rw [hd, run_in_order_calls _ _ _ _ _ _ hk]
    exact Nat.zero_add k
  · intro hlt
    rw [hd, hd, run_work_items_succ, aes_cbc_encrypt_events _ _ _ _ _ _ hlt]
  · intro h1 j hj
    obtain ⟨t, rfl⟩ : ∃ t, k = t + 1 := ⟨k - 1, by omega⟩
    rw [hd, run_work_items_succ, aes_cbc_encrypt_load _ _ _ _ _ _ (by omega),
      if_neg (by omega), if_pos (by omega), show 16 * n + j - n * 16 = j by omega]

/-- Witness of the amended C10: two blocks, after both work items. -/
theorem schedule_rederived_by_every_work_item_witness :
    (List.replicate 16 0).length = 16 ∧ (List.replicate 32 0).length = 16 * 2 ∧ 2 ≤ 2 ∧
    (device_run (List.replicate 32 0) (16 * 2) (List.replicate 16 0) (List.replicate 16 0) []
      (List.range 2)).events.count Event.call_key_expansion = 2 :=
  ⟨by decide, by decide, by decide,
    (schedule_rederived_by_every_work_item (List.replicate 16 0) (List.replicate 16 0)
      (List.replicate 32 0) [] 2 2 (by decide) (by decide) (by decide) (by decide)).1⟩

/-! ## The zero-length call -/

theorem run_work_items_none (inp : List Nat) (m : GlobalMem) (key iv order : List Nat) :
    run_work_items inp m 0 key iv order = m := by
  induction order generalizing m with
  | nil => rfl
  | cons x xs ih =>
    rw [run_work_items_cons, aes_cbc_encrypt_idle _ _ _ _ _ _ (Nat.not_lt_zero x), ih]

/-- C11: the zero-length boundary. `aes_encrypt_cbc` with `length = 0` leaves the caller's
buffer as it was, whatever it held (no byte is written, the ciphertext is empty); on the
device no work item stores anything and `key_expansion` is not called (no block is
processed); and the call returns, having no way to report an error. -/
theorem zero_length_is_untouched (inp out key iv dev order : List Nat) :
    aes_encrypt_cbc inp out 0 key iv dev order = out ∧
    (device_run inp 0 key iv dev order).events = [] := by
  refine ⟨rfl, ?_⟩
  unfold device_run
  rw [show 0 / 16 = 0 from rfl, run_work_items_none]
  rfl

/-! ## MixColumns and ShiftRows, entry by entry -/

/-- C15: MixColumns applies the MDS matrix to each column. For a state of 16 entries,
column `c` and row `r` below 4, the entry at `4c + r` after `mix_columns` is
`gmul(2, s[4c+r]) XOR gmul(3, s[4c+(r+1) mod 4]) XOR s[4c+(r+2) mod 4] XOR
s[4c+(r+3) mod 4]`, all read from the state before the call. -/
theorem mix_columns_formula (s : List Nat) (hs : s.length = 16) (c r : Nat) (hc : c < 4)
    (hr : r < 4) :
    (mix_columns s).getD (4 * c + r) 0 =
      gmul 2 (s.getD (4 * c + r) 0) ^^^ gmul 3 (s.getD (4 * c + (r + 1) % 4) 0) ^^^
        s.getD (4 * c + (r + 2) % 4) 0 ^^^ s.getD (4 * c + (r + 3) % 4) 0 := by
  obtain ⟨a0, a1, a2, a3, a4, a5, a6, a7, a8, a9, a10, a11, a12, a13, a14, a15, rfl⟩ :=
    list16_exists hs
  rw [mix_columns_eq]
  interval_cases c <;> interval_cases r <;>
    simp only [Nat.reduceMul, Nat.reduceAdd, Nat.reduceMod, List.getD_cons_zero,
      List.getD_cons_succ] <;> ac_rfl

/-- Witness of C15: the state `0, 1, .., 15`, column 2, row 3. -/
theorem mix_columns_formula_witness :
    (List.range 16).length = 16 ∧ 2 < 4 ∧ 3 < 4 ∧
    (mix_columns (List.range 16)).getD (4 * 2 + 3) 0 =
      gmul 2 ((List.range 16).getD (4 * 2 + 3) 0) ^^^
        gmul 3 ((List.range 16).getD (4 * 2 + (3 + 1) % 4) 0) ^^^
        (List.range 16).getD (4 * 2 + (3 + 2) % 4) 0 ^^^
        (List.range 16).getD (4 * 2 + (3 + 3) % 4) 0 :=
  ⟨by decide, by decide, by decide,
    mix_columns_formula (List.range 16) (by decide) 2 3 (by decide) (by decide)⟩

theorem shift_rows_perm_index :
    List.Perm [0, 5, 10, 15, 4, 9, 14, 3, 8, 13, 2, 7, 12, 1, 6, 11] (List.range 16) := by
  decide

/-- C16: ShiftRows rotates row `r` left by `r` places in the column-major state. For a
state of 16 entries, row `r` and column `c` below 4, the entry at `r + 4c` after
`shift_rows` is `s[r + 4((c + r) mod 4)]` from before the call; row 0 is unchanged; and
the result is a permutation of the entries of the input. -/
theorem shift_rows_rotates (s : List Nat) (hs : s.length = 16) :
    (∀ r < 4, ∀ c < 4,
      (shift_rows s).getD (r + 4 * c) 0 = s.getD (r + 4 * ((c + r) % 4)) 0) ∧
    (∀ c < 4, (shift_rows s).getD (0 + 4 * c) 0 = s.getD (0 + 4 * c) 0) ∧
    List.Perm (shift_rows s) s := by
  obtain ⟨a0, a1, a2, a3, a4, a5, a6, a7, a8, a9, a10, a11, a12, a13, a14, a15, rfl⟩ :=
    list16_exists hs
  rw [shift_rows_eq]
  refine ⟨?_, ?_, ?_⟩
  · intro r hr c hc
    interval_cases r <;> interval_cases c <;> rfl
  · intro c hc
    interval_cases c <;> rfl
  · exact List.Perm.map
      (fun i => [a0, a1, a2, a3, a4, a5, a6, a7, a8, a9, a10, a11, a12, a13, a14, a15].getD i 0)
      shift_rows_perm_index

/-- Witness of C16: the state `0, 1, .., 15`, row 1 and column 3. -/
theorem shift_rows_rotates_witness :
    (List.range 16).length = 16 ∧
    (shift_rows (List.range 16)).getD (1 + 4 * 3) 0 =
      (List.range 16).getD (1 + 4 * ((3 + 1) % 4)) 0 :=
  ⟨by decide, (shift_rows_rotates (List.range 16) (by decide)).1 1 (by decide) 3 (by decide)⟩

/-! ## The schedule in the buffer that is read back -/

theorem key_schedule_first16 (key : List Nat) : ∀ i < 16, (key_schedule key).load i = key.getD i 0 := by
  intro i hi
  have := key_expansion_first16 key (GlobalMem.ofList (List.replicate 176 0)) 0 i hi
  rw [Nat.zero_add] at this
  exact this

/-- After any work items, each with an index below `num_blocks`, the last of them has left
the schedule of the key in the 176 bytes at `16 * num_blocks`. -/
theorem run_work_items_schedule (inp : List Nat) (m : GlobalMem) (n : Nat) (key iv : List Nat)
    (order : List Nat) (hne : order ≠ []) (hlt : ∀ x ∈ order, x < n) :
    ∀ j < 176, (run_work_items inp m n key iv order).load (n * 16 + j) =
      (key_schedule key).load j := by
  intro j hj
  rcases List.eq_nil_or_concat order with h | ⟨l, x, rfl⟩
  · exact absurd h hne
  · rw [List.concat_eq_append] at hlt ⊢
    have hx : x < n := hlt x (by simp)
    have e : run_work_items inp m n key iv (l ++ [x]) =
        aes_cbc_encrypt inp (run_work_items inp m n key iv l) n key iv x := by
      simp [run_work_items, List.foldl_append]
    rw [e, aes_cbc_encrypt_load _ _ _ _ _ _ hx, if_neg (by omega), if_pos (by omega),
      Nat.add_sub_cancel_left]

/-- C17: key bytes in the output for unaligned lengths. For a key and an IV of 16 bytes and
an input of length `L ≥ 16` with `L mod 16 ≠ 0`, the work items in order, the trailing
`L mod 16` bytes of the caller's buffer, at the offsets `16 * (L / 16) .. L - 1`, are the
first `L mod 16` bytes of the key: the schedule starts at `16 * num_blocks` of the buffer
of which `L` bytes are read back. -/
theorem key_bytes_in_output (key iv inp out dev : List Nat) (hkey : key.length = 16)
    (hiv : iv.length = 16) (hL : 16 ≤ inp.length) (_hr : inp.length % 16 ≠ 0)
    (hout : out.length = inp.length) :
    ∀ t < inp.length % 16,
      (aes_encrypt_cbc inp out inp.length key iv dev (List.range (inp.length / 16))).getD
        (16 * (inp.length / 16) + t) 0 = key.getD t 0 := by
  intro t ht
  have h1 : 16 * (inp.length / 16) + t < inp.length := by omega
  rw [aes_encrypt_cbc_getD, if_pos ⟨h1, by omega⟩, device_run_eq inp key iv dev _ hkey hiv,
    show 16 * (inp.length / 16) + t = inp.length / 16 * 16 + t by omega,
    run_work_items_schedule inp _ _ key iv _ (by
      intro h
      have := congrArg List.length h
      simp only [List.length_range, List.length_nil] at this
      omega) (fun x hx => List.mem_range.1 hx) t (by omega),
    key_schedule_first16 key t (by omega)]

/-- Witness of C17: seventeen bytes of input under the key `0, 1, .., 15`; the last byte
of the output is the first byte of the key. -/
theorem key_bytes_in_output_witness :
    (List.range 16).length = 16 ∧ (List.replicate 16 0).length = 16 ∧
    16 ≤ (List.replicate 17 0).length ∧ (List.replicate 17 0).length % 16 ≠ 0 ∧
    (List.replicate 17 9).length = (List.replicate 17 0).length ∧
    0 < (List.replicate 17 0).length % 16 ∧
    (aes_encrypt_cbc (List.replicate 17 0) (List.replicate 17 9) (List.replicate 17 0).length
        (List.range 16) (List.replicate 16 0) []
        (List.range ((List.replicate 17 0).length / 16))).getD
      (16 * ((List.replicate 17 0).length / 16) + 0) 0 = (List.range 16).getD 0 0 :=
  ⟨by decide, by decide, by decide, by decide, by decide, by decide,
    key_bytes_in_output (List.range 16) (List.replicate 16 0) (List.replicate 17 0)
      (List.replicate 17 9) [] (by decide) (by decide) (by decide) (by decide) (by decide) 0
      (by decide)⟩

/-- C19: re-deriving the schedule preserves its value. The 176 bytes that `key_expansion`
writes are the same for the same key, whatever the buffer held and wherever they go; so
after every work item of a run over `n` blocks (any order, any number of work items, each
index below `n`) the region `out[16n .. 16n+175]` holds the schedule of the key; and the
sixteen stores of the ciphertext of a work item, the first sixteen of its record, go to
`16*idx .. 16*idx+15`, below `16n`, the other stores being the 176 of `key_expansion`. -/
theorem schedule_value_preserved (key iv inp : List Nat) (m p : GlobalMem) (n r q : Nat)
    (order : List Nat) (idx : Nat) (hidx : idx < n) (hne : order ≠ [])
    (hlt : ∀ x ∈ order, x < n) :
    (∀ j < 176, (key_expansion key m r).load (r + j) = (key_expansion key p q).load (q + j)) ∧
    (∀ j < 176, (run_work_items inp m n key iv order).load (n * 16 + j) =
      (key_schedule key).load j) ∧
    (aes_cbc_encrypt inp m n key iv idx).events =
      ((List.range 16).map (fun i => Event.store (idx * 16 + i))).reverse ++
        (key_expansion key m (n * 16)).events ∧
    (∀ i < 16, idx * 16 + i < n * 16) := by
  refine ⟨key_expansion_region key m p r q, run_work_items_schedule inp m n key iv order hne hlt,
    ?_, fun i hi => by omega⟩
  rw [aes_cbc_encrypt_events inp m n key iv idx hidx, key_expansion_events]

/-- Witness of C19: two blocks, the work items in the order 1, 0; the first byte of the
schedule region after the run. -/
theorem schedule_value_preserved_witness :
    1 < 2 ∧ [1, 0] ≠ ([] : List Nat) ∧ (∀ x ∈ [1, 0], x < 2) ∧
    (run_work_items (List.replicate 32 0) (GlobalMem.ofList []) 2 (List.range 16)
      (List.replicate 16 0) [1, 0]).load (2 * 16 + 0) =
      (key_schedule (List.range 16)).load 0 :=
  ⟨by decide, by decide, by decide,
    (schedule_value_preserved (List.range 16) (List.replicate 16 0) (List.replicate 32 0)
      (GlobalMem.ofList []) (GlobalMem.ofList []) 2 0 0 [1, 0] 1 (by decide) (by decide)
      (by decide)).2.1 0 (by decide)⟩

/-! ## The block cipher as a permutation -/

theorem scheduleOk_ofList {rk : List Nat} (h : IsBytes rk) :
    ScheduleOk (GlobalMem.ofList rk) 0 := fun j _ => h.getD (0 + j)

theorem blocks_finite : Finite { l : List Nat // IsBlock l } :=
  Finite.of_injective
    (fun (l : { l : List Nat // IsBlock l }) (i : Fin 16) =>
      (⟨l.1.getD i.1 0, l.2.2.getD i.1⟩ : Fin 256))
    (by
      intro a b h
      apply Subtype.ext
      apply ext16 a.2.1 b.2.1
      intro i hi
      have := congrArg (fun f => (f ⟨i, hi⟩).1) h
      exact this)

/-- C18: `aes128_encrypt_block` is injective under every schedule. For every array of 176
bytes of round keys, made by `key_expansion` or not, two distinct states of 16 bytes are
taken to distinct states; a state of bytes is taken to a state of bytes; and every state
of 16 bytes is reached: the block cipher is a permutation of the states. -/
theorem aes128_encrypt_block_permutation (rk : List Nat) (_hlen : rk.length = 176)
    (hrk : IsBytes rk) :
    (∀ s t, IsBlock s → IsBlock t → s ≠ t →
      aes128_encrypt_block s (GlobalMem.ofList rk) 0 ≠
        aes128_encrypt_block t (GlobalMem.ofList rk) 0) ∧
    (∀ s, IsBlock s → IsBlock (aes128_encrypt_block s (GlobalMem.ofList rk) 0)) ∧
    (∀ t, IsBlock t → ∃ s, IsBlock s ∧ aes128_encrypt_block s (GlobalMem.ofList rk) 0 = t) := by
  have hk := scheduleOk_ofList hrk
  refine ⟨fun s t hs ht hne e => hne (aes128_encrypt_block_inj hk hs ht e),
    fun s hs => aes128_encrypt_block_block hk hs, ?_⟩
  intro t ht
  have hinj : Function.Injective
      (fun (l : { l : List Nat // IsBlock l }) =>
        (⟨aes128_encrypt_block l.1 (GlobalMem.ofList rk) 0, aes128_encrypt_block_block hk l.2⟩ :
          { l : List Nat // IsBlock l })) := by
    intro a b h
    simp only [Subtype.mk.injEq] at h
    exact Subtype.ext (aes128_encrypt_block_inj hk a.2 b.2 h)
  haveI := blocks_finite
  obtain ⟨s, hs⟩ := Finite.surjective_of_injective hinj ⟨t, ht⟩
  simp only [Subtype.mk.injEq] at hs
  exact ⟨s.1, s.2, hs⟩

theorem isBytes_replicate (k : Nat) {v : Nat} (hv : v < 256) : IsBytes (List.replicate k v) :=
  fun _ hx => (List.eq_of_mem_replicate hx) ▸ hv

/-- Witness of C18: the round keys all zero, the zero state against the state of ones. -/
theorem aes128_encrypt_block_permutation_witness :
    (List.replicate 176 0).length = 176 ∧ IsBytes (List.replicate 176 0) ∧
    IsBlock (List.replicate 16 0) ∧ IsBlock (List.replicate 16 1) ∧
    List.replicate 16 0 ≠ List.replicate 16 1 ∧
    aes128_encrypt_block (List.replicate 16 0) (GlobalMem.ofList (List.replicate 176 0)) 0 ≠
      aes128_encrypt_block (List.replicate 16 1) (GlobalMem.ofList (List.replicate 176 0)) 0 :=
  ⟨List.length_replicate 176 0, isBytes_replicate 176 (by decide), by decide, by decide,
    by decide,
    (aes128_encrypt_block_permutation (List.replicate 176 0) (List.length_replicate 176 0)
      (isBytes_replicate 176 (by decide))).1
      (List.replicate 16 0) (List.replicate 16 1) (by decide) (by decide) (by decide)⟩

/-! ## The key expansion word by word -/

theorem rcon_after_table : ∀ e < 10, rcon_after e = rcon_table.getD e 0 := by decide!

theorem rcon_table_lt : ∀ e < 10, rcon_table.getD e 0 < 256 := by decide

theorem rcon_table_doubles :
    rcon_table.getD 0 0 = 1 ∧ ∀ e < 9, rcon_table.getD (e + 1) 0 = gmul (rcon_table.getD e 0) 2 := by
  decide!

theorem schedule_word_frame (r : Nat) (s : KeyExpState) (k : Nat) (h16 : 16 ≤ s.i)
    (hk : 4 * k + 4 ≤ s.i) :
    schedule_word (key_expansion_body r s).mem r k = schedule_word s.mem r k := by
  unfold schedule_word
  rw [key_expansion_body_load r s h16, key_expansion_body_load r s h16,
    key_expansion_body_load r s h16, key_expansion_body_load r s h16, if_neg (by omega),
    if_neg (by omega), if_neg (by omega), if_neg (by omega)]

/-- The bytes `temp` of a pass of the loop are `g` of the previous word. -/
theorem key_expansion_temp_g (r : Nat) (s : KeyExpState) (k : Nat) (hi : s.i = 4 * k)
    (hk4 : 4 ≤ k) (hk44 : k < 44) (hr : s.rcon = rcon_after ((s.i - 1) / 16)) :
    (key_expansion_temp r s).1 = schedule_g k (schedule_word s.mem r (k - 1)) := by
  rw [key_expansion_temp_eq]
  unfold schedule_g schedule_word rot_word sub_word xor_block
  have e4 : s.i - 4 = 4 * (k - 1) := by omega
  rw [e4]
  by_cases c : k % 4 = 0
  · have c16 : s.i % 16 = 0 := by omega
    have he : (s.i - 1) / 16 = k / 4 - 1 := by omega
    rw [if_pos c, if_pos c16, hr, he, rcon_after_table _ (by omega)]
    have hlt := xor_lt_256 (sbox_lt (s.mem.load (r + (4 * (k - 1) + 1))))
      (rcon_table_lt (k / 4 - 1) (by omega))
    rw [Nat.mod_eq_of_lt hlt]
    simp only [List.getD_cons_zero, List.getD_cons_succ, List.map, List.zipWith,
      Nat.xor_zero]
  · have c16 : ¬ s.i % 16 = 0 := by omega
    rw [if_neg c, if_neg c16]

theorem key_expansion_temp_rcon (r : Nat) (s : KeyExpState) (h4 : s.i % 4 = 0)
    (h16 : 16 ≤ s.i) (hr : s.rcon = rcon_after ((s.i - 1) / 16)) :
    (key_expansion_temp r s).2 = rcon_after ((s.i + 4 - 1) / 16) := by
  rw [key_expansion_temp_eq]
  by_cases c16 : s.i % 16 = 0
  · rw [if_pos c16, show (s.i + 4 - 1) / 16 = (s.i - 1) / 16 + 1 by omega, hr]
    rfl
  · rw [if_neg c16, show (s.i + 4 - 1) / 16 = (s.i - 1) / 16 by omega, hr]

/-- The word that a pass of the loop writes. -/
theorem schedule_word_new (r : Nat) (s : KeyExpState) (k : Nat) (hi : s.i = 4 * k)
    (hk4 : 4 ≤ k) (hk44 : k < 44) (hr : s.rcon = rcon_after ((s.i - 1) / 16)) :
    schedule_word (key_expansion_body r s).mem r k =
      xor_block (schedule_word s.mem r (k - 4))
        (schedule_g k (schedule_word s.mem r (k - 1))) := by
  rw [← key_expansion_temp_g r s k hi hk4 hk44 hr]
  have h16 : 16 ≤ s.i := by omega
  have len : ∃ t0 t1 t2 t3, (key_expansion_temp r s).1 = [t0, t1, t2, t3] := by
    rw [key_expansion_temp_eq]
    split
    · exact ⟨_, _, _, _, rfl⟩
    · exact ⟨_, _, _, _, rfl⟩
  obtain ⟨t0, t1, t2, t3, ht⟩ := len
  unfold schedule_word
  rw [key_expansion_body_load r s h16, key_expansion_body_load r s h16,
    key_expansion_body_load r s h16, key_expansion_body_load r s h16, if_pos (by omega),
    if_pos (by omega), if_pos (by omega), if_pos (by omega), ht,
    show r + (4 * k + 0) - 16 = r + (4 * (k - 4) + 0) by omega,
    show r + (4 * k + 1) - 16 = r + (4 * (k - 4) + 1) by omega,
    show r + (4 * k + 2) - 16 = r + (4 * (k - 4) + 2) by omega,
    show r + (4 * k + 3) - 16 = r + (4 * (k - 4) + 3) by omega,
    show r + (4 * k + 0) - (r + s.i) = 0 by omega,
    show r + (4 * k + 1) - (r + s.i) = 1 by omega,
    show r + (4 * k + 2) - (r + s.i) = 2 by omega,
    show r + (4 * k + 3) - (r + s.i) = 3 by omega]
  rfl

theorem key_expansion_init_rcon (key : List Nat) (m : GlobalMem) (r : Nat) :
    (key_expansion_init key m r).rcon =
      rcon_after (((key_expansion_init key m r).i - 1) / 16) := by
  show 1 = rcon_after ((16 - 1) / 16)
  rfl

/-- The recurrence of the words in the schedule that `key_expansion` leaves. -/
theorem key_expansion_words (key : List Nat) (m : GlobalMem) (r : Nat) :
    ∀ k, 4 ≤ k → k < 44 →
      schedule_word (key_expansion key m r) r k =
        xor_block (schedule_word (key_expansion key m r) r (k - 4))
          (schedule_g k (schedule_word (key_expansion key m r) r (k - 1))) := by
  rw [key_expansion_eq]
  have h := key_expansion_loop_induct r
    (fun s => s.i % 4 = 0 ∧ 16 ≤ s.i ∧ s.i ≤ 176 ∧ s.rcon = rcon_after ((s.i - 1) / 16) ∧
      ∀ k, 4 ≤ k → 4 * k < s.i →
        schedule_word s.mem r k =
          xor_block (schedule_word s.mem r (k - 4))
            (schedule_g k (schedule_word s.mem r (k - 1))))
    (by
      intro s ⟨h4, h16, hle, hr, hw⟩ hlt
      refine ⟨?_, ?_, ?_, ?_, ?_⟩
      · rw [key_expansion_body_i]; omega
      · rw [key_expansion_body_i]; omega
      · rw [key_expansion_body_i]; omega
      · rw [key_expansion_body_i, key_expansion_body_rcon]
        exact key_expansion_temp_rcon r s h4 h16 hr
      · intro k hk4 hk
        rw [key_expansion_body_i] at hk
        rw [schedule_word_frame r s (k - 4) h16 (by omega),
          schedule_word_frame r s (k - 1) h16 (by omega)]
        by_cases c : 4 * k < s.i
        · rw [schedule_word_frame r s k h16 (by omega)]
          exact hw k hk4 c
        · exact schedule_word_new r s k (by omega) hk4 (by omega) hr)
    176 (key_expansion_init key { m with events := Event.call_key_expansion :: m.events } r)
    ⟨(key_expansion_init_inv _ _ _).2.1, (key_expansion_init_inv _ _ _).1,
      (key_expansion_init_inv _ _ _).2.2, key_expansion_init_rcon _ _ _, fun k hk4 hk => by
        have : (key_expansion_init key
          { m with events := Event.call_key_expansion :: m.events } r).i = 16 := rfl
        omega⟩
  have hexit := key_expansion_loop_exit r 176
    (key_expansion_init key { m with events := Event.call_key_expansion :: m.events } r)
    (key_expansion_init_inv _ _ _).2.1 (key_expansion_init_inv _ _ _).2.2 (by
      have := (key_expansion_init_inv key
        { m with events := Event.call_key_expansion :: m.events } r).1
      omega)
  obtain ⟨_, _, _, _, hw⟩ := h
  intro k hk4 hk44
  exact hw k hk4 (by omega)

/-- C12: the key schedule follows the Rijndael key expansion. For a key of 16 bytes, with
the 176 bytes that `key_expansion` leaves at `r` read as the words `w[0..43]`:
`w[0..3]` is the key; for `4 ≤ k < 44`, `w[k] = w[k-4] XOR g(w[k-1])`, `g` the identity
when `k` is not a multiple of 4 and else rotate left by a byte, substitute through the
S-box and XOR the first byte with the round constant; and the round constants of the
round keys 1..10 are `01 02 04 08 10 20 40 80 1b 36`, each `gmul` of the one before by 2. -/
theorem key_expansion_rijndael (key : List Nat) (hkey : key.length = 16) (m : GlobalMem)
    (r : Nat) :
    schedule_word (key_expansion key m r) r 0 ++ schedule_word (key_expansion key m r) r 1 ++
      schedule_word (key_expansion key m r) r 2 ++ schedule_word (key_expansion key m r) r 3 =
      key ∧
    (∀ k, 4 ≤ k → k < 44 →
      schedule_word (key_expansion key m r) r k =
        xor_block (schedule_word (key_expansion key m r) r (k - 4))
          (schedule_g k (schedule_word (key_expansion key m r) r (k - 1)))) ∧
    rcon_table = [0x01, 0x02, 0x04, 0x08, 0x10, 0x20, 0x40, 0x80, 0x1b, 0x36] ∧
    (∀ e < 9, rcon_table.getD (e + 1) 0 = gmul (rcon_table.getD e 0) 2) := by
  refine ⟨?_, key_expansion_words key m r, rfl, rcon_table_doubles.2⟩
  unfold schedule_word
  rw [key_expansion_first16 key m r (4 * 0 + 0) (by decide),
    key_expansion_first16 key m r (4 * 0 + 1) (by decide),
    key_expansion_first16 key m r (4 * 0 + 2) (by decide),
    key_expansion_first16 key m r (4 * 0 + 3) (by decide),
    key_expansion_first16 key m r (4 * 1 + 0) (by decide),
    key_expansion_first16 key m r (4 * 1 + 1) (by decide),
    key_expansion_first16 key m r (4 * 1 + 2) (by decide),
    key_expansion_first16 key m r (4 * 1 + 3) (by decide),
    key_expansion_first16 key m r (4 * 2 + 0) (by decide),
    key_expansion_first16 key m r (4 * 2 + 1) (by decide),
    key_expansion_first16 key m r (4 * 2 + 2) (by decide),
    key_expansion_first16 key m r (4 * 2 + 3) (by decide),
    key_expansion_first16 key m r (4 * 3 + 0) (by decide),
    key_expansion_first16 key m r (4 * 3 + 1) (by decide),
    key_expansion_first16 key m r (4 * 3 + 2) (by decide),
    key_expansion_first16 key m r (4 * 3 + 3) (by decide)]
  exact (list16_eq hkey).symm

/-- Witness of C12: the key `0, 1, .., 15` expanded at address 0; word 4, the first of
round key 1. -/
theorem key_expansion_rijndael_witness :
    (List.range 16).length = 16 ∧ 4 ≤ 4 ∧ 4 < 44 ∧
    schedule_word (key_expansion (List.range 16) (GlobalMem.ofList []) 0) 0 4 =
      xor_block (schedule_word (key_expansion (List.range 16) (GlobalMem.ofList []) 0) 0 (4 - 4))
        (schedule_g 4
          (schedule_word (key_expansion (List.range 16) (GlobalMem.ofList []) 0) 0 (4 - 1))) :=
  ⟨by decide, by decide, by decide,
    (key_expansion_rijndael (List.range 16) (by decide) (GlobalMem.ofList []) 0).2.1 4
      (by decide) (by decide)⟩

/-! ## GF(2^8) -/

theorem byte_bits : ∀ b < 256,
    b = bit_part b 0 ^^^ bit_part b 1 ^^^ bit_part b 2 ^^^ bit_part b 3 ^^^ bit_part b 4 ^^^
      bit_part b 5 ^^^ bit_part b 6 ^^^ bit_part b 7 := by
  decide!

theorem bit_part_lt (b : Nat) {j : Nat} (hj : j < 8) : bit_part b j < 256 := by
  unfold bit_part
  split
  · have : 2 ^ j < 2 ^ 8 := Nat.pow_lt_pow_right (by decide) hj
    simpa using this
  · decide

/-- Two functions that are additive on bytes and agree on the powers of two agree on
all bytes. -/
theorem additive_ext (f g : Nat → Nat)
    (hf : ∀ x y, x < 256 → y < 256 → f (x ^^^ y) = f x ^^^ f y)
    (hg : ∀ x y, x < 256 → y < 256 → g (x ^^^ y) = g x ^^^ g y)
    (h : ∀ j < 8, f (2 ^ j) = g (2 ^ j)) : ∀ b < 256, f b = g b := by
  have zero : ∀ u : Nat → Nat, (∀ x y, x < 256 → y < 256 → u (x ^^^ y) = u x ^^^ u y) →
      u 0 = 0 := by
    intro u hu
    have := hu 0 0 (by decide) (by decide)
    rw [Nat.xor_self] at this
    have h2 : u 0 ^^^ u 0 = 0 := Nat.xor_self _
    rw [← this] at h2
    exact h2
  have part : ∀ b j, j < 8 → f (bit_part b j) = g (bit_part b j) := by
    intro b j hj
    unfold bit_part
    split
    · exact h j hj
    · rw [zero f hf, zero g hg]
  have sum : ∀ u : Nat → Nat, (∀ x y, x < 256 → y < 256 → u (x ^^^ y) = u x ^^^ u y) →
      ∀ b, u (bit_part b 0 ^^^ bit_part b 1 ^^^ bit_part b 2 ^^^ bit_part b 3 ^^^
        bit_part b 4 ^^^ bit_part b 5 ^^^ bit_part b 6 ^^^ bit_part b 7) =
        u (bit_part b 0) ^^^ u (bit_part b 1) ^^^ u (bit_part b 2) ^^^ u (bit_part b 3) ^^^
        u (bit_part b 4) ^^^ u (bit_part b 5) ^^^ u (bit_part b 6) ^^^ u (bit_part b 7) := by
    intro u hu b
    have p0 := bit_part_lt b (show 0 < 8 by decide)
    have p1 := bit_part_lt b (show 1 < 8 by decide)
    have p2 := bit_part_lt b (show 2 < 8 by decide)
    have p3 := bit_part_lt b (show 3 < 8 by decide)
    have p4 := bit_part_lt b (show 4 < 8 by decide)
    have p5 := bit_part_lt b (show 5 < 8 by decide)
    have p6 := bit_part_lt b (show 6 < 8 by decide)
    have p7 := bit_part_lt b (show 7 < 8 by decide)
    have q1 := xor_lt_256 p0 p1
    have q2 := xor_lt_256 q1 p2
    have q3 := xor_lt_256 q2 p3
    have q4 := xor_lt_256 q3 p4
    have q5 := xor_lt_256 q4 p5
    have q6 := xor_lt_256 q5 p6
    rw [hu _ _ q6 p7, hu _ _ q5 p6, hu _ _ q4 p5, hu _ _ q3 p4, hu _ _ q2 p3, hu _ _ q1 p2,
      hu _ _ p0 p1]
  intro b hb
  rw [byte_bits b hb, sum f hf, sum g hg, part b 0 (by decide), part b 1 (by decide),
    part b 2 (by decide), part b 3 (by decide), part b 4 (by decide), part b 5 (by decide),
    part b 6 (by decide), part b 7 (by decide)]

theorem ite_xor_bit (p q : Bool) (t : Nat) :
    (if (p ^^ q) = true then t else 0) =
      (if p = true then t else 0) ^^^ (if q = true then t else 0) := by
  cases p <;> cases q <;> simp

theorem shiftLeft_xor (a c i : Nat) : (a ^^^ c) <<< i = a <<< i ^^^ c <<< i := by
  apply Nat.eq_of_testBit_eq
  intro j
  simp only [Nat.testBit_shiftLeft, Nat.testBit_xor]
  cases decide (j ≥ i) <;> simp

theorem range8 : List.range 8 = [0, 1, 2, 3, 4, 5, 6, 7] := by decide

/-- The carry-less product is additive in its second argument. -/
theorem clmul_xor_right (a b c : Nat) : clmul a (b ^^^ c) = clmul a b ^^^ clmul a c := by
  unfold clmul
  simp only [range8, List.foldl, Nat.testBit_xor, ite_xor_bit, Nat.zero_xor]
  ac_rfl

theorem ite_shift_xor (p : Bool) (a c i : Nat) :
    (if p = true then (a ^^^ c) <<< i else 0) =
      (if p = true then a <<< i else 0) ^^^ (if p = true then c <<< i else 0) := by
  cases p <;> simp [shiftLeft_xor]

/-- The carry-less product is additive in its first argument. -/
theorem clmul_xor_left (a c b : Nat) : clmul (a ^^^ c) b = clmul a b ^^^ clmul c b := by
  unfold clmul
  simp only [range8, List.foldl, ite_shift_xor, Nat.zero_xor]
  ac_rfl

theorem poly_reduce_step_xor (x y i : Nat) :
    poly_reduce_step (x ^^^ y) i = poly_reduce_step x i ^^^ poly_reduce_step y i := by
  unfold poly_reduce_step
  rw [Nat.testBit_xor]
  cases x.testBit (8 + i) <;> cases y.testBit (8 + i) <;> simp
  · ac_rfl
  · ac_rfl
  · rw [show x ^^^ 283 <<< i ^^^ (y ^^^ 283 <<< i) =
      x ^^^ y ^^^ (283 <<< i ^^^ 283 <<< i) by ac_rfl, Nat.xor_self, Nat.xor_zero]

/-- The remainder is additive. -/
theorem poly_mod_xor (x y : Nat) : poly_mod (x ^^^ y) = poly_mod x ^^^ poly_mod y := by
  unfold poly_mod
  simp only [List.foldl, poly_reduce_step_xor]

theorem gf256_mul_xor_right (a b c : Nat) :
    gf256_mul a (b ^^^ c) = gf256_mul a b ^^^ gf256_mul a c := by
  unfold gf256_mul
  rw [clmul_xor_right, poly_mod_xor]

theorem gf256_mul_xor_left (a c b : Nat) :
    gf256_mul (a ^^^ c) b = gf256_mul a b ^^^ gf256_mul c b := by
  unfold gf256_mul
  rw [clmul_xor_left, poly_mod_xor]

theorem and_128 (x : Nat) : x &&& 128 = 0 ∨ x &&& 128 = 128 := by
  cases h : x.testBit 7
  · left
    apply Nat.eq_of_testBit_eq
    intro j
    rw [show (128 : Nat) = 2 ^ 7 from rfl, Nat.testBit_and, Nat.testBit_two_pow,
      Nat.zero_testBit]
    by_cases c : 7 = j
    · subst c; simp [h]
    · simp [c]
  · right
    apply Nat.eq_of_testBit_eq
    intro j
    rw [show (128 : Nat) = 2 ^ 7 from rfl, Nat.testBit_and, Nat.testBit_two_pow]
    by_cases c : 7 = j
    · subst c; simp [h]
    · simp [c]

theorem shift_mod_xor (a c : Nat) :
    ((a ^^^ c) <<< 1) % 256 = (a <<< 1) % 256 ^^^ (c <<< 1) % 256 := by
  have e : ∀ x : Nat, x % 256 = x &&& 2 ^ 8 - 1 := fun x =>
    (Nat.and_pow_two_sub_one_eq_mod x 8).symm
  rw [e, e, e, shiftLeft_xor, Nat.and_xor_distrib_right]

/-- The doubling step of `gmul` is additive. -/
theorem xtime_xor (a c : Nat) :
    (if (a ^^^ c) &&& 128 ≠ 0 then ((a ^^^ c) <<< 1) % 256 ^^^ 27
      else ((a ^^^ c) <<< 1) % 256) =
      (if a &&& 128 ≠ 0 then (a <<< 1) % 256 ^^^ 27 else (a <<< 1) % 256) ^^^
        (if c &&& 128 ≠ 0 then (c <<< 1) % 256 ^^^ 27 else (c <<< 1) % 256) := by
  rw [shift_mod_xor, @Nat.and_xor_distrib_right a c 128]
  generalize (a <<< 1) % 256 = u
  generalize (c <<< 1) % 256 = v
  rcases and_128 a with ha | ha <;> rcases and_128 c with hc | hc <;> simp [ha, hc]
  · ac_rfl
  · ac_rfl
  · rw [show u ^^^ 27 ^^^ (v ^^^ 27) = u ^^^ v ^^^ (27 ^^^ 27) by ac_rfl, Nat.xor_self,
      Nat.xor_zero]

theorem gmul_loop_xor_left (n a c b : Nat) :
    gmul_loop n 0 (a ^^^ c) b = gmul_loop n 0 a b ^^^ gmul_loop n 0 c b := by
  induction n generalizing a c b with
  | zero => simp [gmul_loop]
  | succ n ih =>
    simp only [gmul_loop]
    rw [xtime_xor, gmul_loop_acc, ih, gmul_loop_acc n (if b &&& 1 ≠ 0 then 0 ^^^ a else 0),
      gmul_loop_acc n (if b &&& 1 ≠ 0 then 0 ^^^ c else 0)]
    generalize gmul_loop n 0 _ (b >>> 1) = u
    generalize gmul_loop n 0 _ (b >>> 1) = v
    split
    · simp only [Nat.zero_xor]; ac_rfl
    · simp only [Nat.zero_xor]

/-- The product is additive in its first argument. -/
theorem gmul_xor_left (a c b : Nat) : gmul (a ^^^ c) b = gmul a b ^^^ gmul c b :=
  gmul_loop_xor_left 8 a c b

/-- On the powers of two, `gmul` is the product of the field and is symmetric. -/
theorem gmul_basis : ∀ i < 8, ∀ j < 8,
    gmul (2 ^ i) (2 ^ j) = gf256_mul (2 ^ i) (2 ^ j) ∧
      gmul (2 ^ i) (2 ^ j) = gmul (2 ^ j) (2 ^ i) := by
  decide!

/-- The loop of `gmul` computes the product of GF(2^8). -/
theorem gmul_eq_gf256_mul {a b : Nat} (ha : a < 256) (hb : b < 256) :
    gmul a b = gf256_mul a b :=
  additive_ext (gmul a) (gf256_mul a) (fun x y _ _ => gmul_xor a x y)
    (fun x y _ _ => gf256_mul_xor_right a x y)
    (fun j hj =>
      additive_ext (fun x => gmul x (2 ^ j)) (fun x => gf256_mul x (2 ^ j))
        (fun x y _ _ => gmul_xor_left x y _) (fun x y _ _ => gf256_mul_xor_left x y _)
        (fun i hi => (gmul_basis i hi j hj).1) a ha)
    b hb

theorem gmul_comm {a b : Nat} (ha : a < 256) (hb : b < 256) : gmul a b = gmul b a :=
  additive_ext (gmul a) (fun x => gmul x a) (fun x y _ _ => gmul_xor a x y)
    (fun x y _ _ => gmul_xor_left x y a)
    (fun j hj =>
      additive_ext (fun x => gmul x (2 ^ j)) (fun x => gmul (2 ^ j) x)
        (fun x y _ _ => gmul_xor_left x y _) (fun x y _ _ => gmul_xor _ x y)
        (fun i hi => (gmul_basis i hi j hj).2) a ha)
    b hb

/-! ## The remainder modulo 0x11B -/

theorem clmul_modulus_pow : ∀ i < 8, clmul 0x11B (2 ^ i) = 0x11B <<< i := by decide!

theorem clmul_zero_right (a : Nat) : clmul a 0 = 0 := by
  unfold clmul
  simp [range8, List.foldl]

theorem poly_reduce_step_multiple (x i : Nat) (hi : i < 7) :
    ∃ q, q < 128 ∧ x ^^^ poly_reduce_step x i = clmul 0x11B q := by
  unfold poly_reduce_step
  split
  · refine ⟨2 ^ i, ?_, ?_⟩
    · have : 2 ^ i < 2 ^ 7 := Nat.pow_lt_pow_right (by decide) hi
      simpa using this
    · rw [clmul_modulus_pow i (by omega), ← Nat.xor_assoc, Nat.xor_self, Nat.zero_xor]
  · exact ⟨0, by decide, by rw [Nat.xor_self, clmul_zero_right]⟩

theorem poly_fold_multiple (l : List Nat) (hl : ∀ i ∈ l, i < 7) (x : Nat) :
    ∃ q, q < 128 ∧ x ^^^ l.foldl poly_reduce_step x = clmul 0x11B q := by
  induction l generalizing x with
  | nil => exact ⟨0, by decide, by simp [clmul_zero_right]⟩
  | cons i l ih =>
    obtain ⟨q1, hq1, e1⟩ := poly_reduce_step_multiple x i (hl i (List.mem_cons_self i l))
    obtain ⟨q2, hq2, e2⟩ := ih (fun j hj => hl j (List.mem_cons_of_mem i hj))
      (poly_reduce_step x i)
    refine ⟨q1 ^^^ q2, @Nat.xor_lt_two_pow q1 q2 7 hq1 hq2, ?_⟩
    rw [List.foldl_cons, clmul_xor_right, ← e1, ← e2]
    generalize List.foldl poly_reduce_step (poly_reduce_step x i) l = z
    rw [show x ^^^ poly_reduce_step x i ^^^ (poly_reduce_step x i ^^^ z) =
      x ^^^ z ^^^ (poly_reduce_step x i ^^^ poly_reduce_step x i) by ac_rfl, Nat.xor_self,
      Nat.xor_zero]

/-- The remainder differs from the polynomial by a multiple of the modulus. -/
theorem poly_mod_multiple (x : Nat) : ∃ q, q < 128 ∧ x ^^^ poly_mod x = clmul 0x11B q :=
  poly_fold_multiple _ (by decide) x

/-! ## The field laws of `gmul` on bytes -/

theorem gmul_assoc_basis : ∀ i < 8, ∀ j < 8, ∀ k < 8,
    gmul (gmul (2 ^ i) (2 ^ j)) (2 ^ k) = gmul (2 ^ i) (gmul (2 ^ j) (2 ^ k)) := by
  decide!

theorem gmul_assoc {a b c : Nat} (ha : a < 256) (hb : b < 256) (hc : c < 256) :
    gmul (gmul a b) c = gmul a (gmul b c) :=
  additive_ext (fun z => gmul (gmul a b) z) (fun z => gmul a (gmul b z))
    (fun x y _ _ => gmul_xor _ x y)
    (fun x y _ _ => by simp only [gmul_xor])
    (fun k hk =>
      additive_ext (fun y => gmul (gmul a y) (2 ^ k)) (fun y => gmul a (gmul y (2 ^ k)))
        (fun x y _ _ => by simp only [gmul_xor, gmul_xor_left])
        (fun x y _ _ => by simp only [gmul_xor, gmul_xor_left])
        (fun j hj =>
          additive_ext (fun x => gmul (gmul x (2 ^ j)) (2 ^ k))
            (fun x => gmul x (gmul (2 ^ j) (2 ^ k)))
            (fun x y _ _ => by simp only [gmul_xor_left])
            (fun x y _ _ => by simp only [gmul_xor_left])
            (fun i hi => gmul_assoc_basis i hi j hj k hk) a ha)
        b hb)
    c hc

theorem gmul_one_basis : ∀ j < 8, gmul 1 (2 ^ j) = 2 ^ j := by decide!

theorem gmul_one_left {b : Nat} (hb : b < 256) : gmul 1 b = b :=
  additive_ext (gmul 1) (fun x => x) (fun x y _ _ => gmul_xor 1 x y) (fun _ _ _ _ => rfl)
    gmul_one_basis b hb

/-- A byte has at most one inverse under `gmul`. -/
theorem gmul_inverse_unique {x b d : Nat} (hx : x < 256) (hb : b < 256) (hd : d < 256)
    (h1 : gmul x b = 1) (h2 : gmul x d = 1) : d = b := by
  have e1 : gmul (gmul d x) b = b := by
    rw [gmul_comm hd hx, h2, gmul_one_left hb]
  have e2 : gmul d (gmul x b) = d := by
    rw [h1, gmul_comm hd (by decide), gmul_one_left hd]
  rw [← e2, ← gmul_assoc hd hx hb, e1]

/-- C13: `gmul` is the multiplication of GF(2^8) with the reduction polynomial 0x11B. For
bytes `a`, `b`, `c`: `gmul(a, b)` is the carry-less product of `a` and `b` reduced modulo
`x^8 + x^4 + x^3 + x + 1`; that is a byte, and it differs from the carry-less product by a
multiple of the modulus; `gmul` is commutative and distributes over XOR on either side. -/
theorem gmul_is_gf256_mul (a b c : Nat) (ha : a < 256) (hb : b < 256) (_hc : c < 256) :
    gmul a b = gf256_mul a b ∧ gmul a b < 256 ∧
    (∃ q, q < 128 ∧ clmul a b ^^^ gf256_mul a b = clmul 0x11B q) ∧
    gmul a b = gmul b a ∧
    gmul a (b ^^^ c) = gmul a b ^^^ gmul a c ∧
    gmul (a ^^^ b) c = gmul a c ^^^ gmul b c :=
  ⟨gmul_eq_gf256_mul ha hb, gmul_lt b ha, poly_mod_multiple (clmul a b), gmul_comm ha hb,
    gmul_xor a b c, gmul_xor_left a b c⟩

/-- Witness of C13: the bytes 0x57, 0x83 and 0x13; 0x57 times 0x83 is 0xc1. -/
theorem gmul_is_gf256_mul_witness :
    0x57 < 256 ∧ 0x83 < 256 ∧ 0x13 < 256 ∧ gmul 0x57 0x83 = gf256_mul 0x57 0x83 ∧
    gf256_mul 0x57 0x83 = 0xc1 :=
  ⟨by decide, by decide, by decide,
    (gmul_is_gf256_mul 0x57 0x83 0x13 (by decide) (by decide) (by decide)).1, by decide⟩

/-! ## The S-box -/

theorem gf_inv_table_length : gf_inv_table.length = 256 := by decide!

/-- Row by row: the byte `x`, its entry in `sbox` and its entry in `gf_inv_table`. -/
theorem sbox_rows : ∀ p ∈ List.zip (List.range 256) (List.zip sbox gf_inv_table),
    p.2.2 < 256 ∧ (p.1 = 0 → p.2.2 = 0) ∧ (p.1 ≠ 0 → gmul p.1 p.2.2 = 1) ∧
      p.2.1 = sbox_affine p.2.2 := by
  decide!

theorem sbox_row_mem (x : Nat) (hx : x < 256) :
    (x, (sbox.getD x 0, gf_inv_table.getD x 0)) ∈
      List.zip (List.range 256) (List.zip sbox gf_inv_table) := by
  have h1 : x < sbox.length := by rw [sbox_length]; exact hx
  have h2 : x < gf_inv_table.length := by rw [gf_inv_table_length]; exact hx
  have h : (List.zip (List.range 256) (List.zip sbox gf_inv_table))[x]? =
      some (x, (sbox.getD x 0, gf_inv_table.getD x 0)) := by
    rw [List.getElem?_zip_eq_some]
    refine ⟨List.getElem?_range hx, ?_⟩
    rw [List.getElem?_zip_eq_some]
    exact ⟨by rw [List.getD_eq_getElem _ _ h1]; exact List.getElem?_eq_getElem h1,
      by rw [List.getD_eq_getElem _ _ h2]; exact List.getElem?_eq_getElem h2⟩
  exact List.getElem?_mem h

/-- C14: the table `sbox` is the S-box of the AES standard. For every byte `x` there is a
byte `b`, which is 0 when `x = 0` and else the inverse of `x` under `gmul` (`gmul(x, b) = 1`,
and no other byte has that property), such that
`sbox[x] = b XOR rotl(b,1) XOR rotl(b,2) XOR rotl(b,3) XOR rotl(b,4) XOR 0x63`, `rotl` the
rotation of a byte to the left. -/
theorem sbox_is_aes_sbox (x : Nat) (hx : x < 256) :
    ∃ b, b < 256 ∧ (x = 0 → b = 0) ∧
      (x ≠ 0 → gmul x b = 1 ∧ ∀ d < 256, gmul x d = 1 → d = b) ∧
      sbox.getD x 0 = sbox_affine b := by
  obtain ⟨h1, h2, h3, h4⟩ := sbox_rows _ (sbox_row_mem x hx)
  exact ⟨gf_inv_table.getD x 0, h1, h2,
    fun hne => ⟨h3 hne, fun d hd hd1 => gmul_inverse_unique hx h1 hd (h3 hne) hd1⟩, h4⟩

/-- Witness of C14: the byte 0x53, whose inverse is 0xca and whose S-box entry is 0xed. -/
theorem sbox_is_aes_sbox_witness :
    0x53 < 256 ∧ gmul 0x53 0xca = 1 ∧ sbox_affine 0xca = 0xed ∧
    ∃ b, b < 256 ∧ (0x53 = 0 → b = 0) ∧
      (0x53 ≠ 0 → gmul 0x53 b = 1 ∧ ∀ d < 256, gmul 0x53 d = 1 → d = b) ∧
      sbox.getD 0x53 0 = sbox_affine b :=
  ⟨by decide, by decide, by decide, sbox_is_aes_sbox 0x53 (by decide)⟩

end AesOpenCL
